import Mathlib

/-!
# Verification of the `json.rs` recursive-descent JSON parser

Shallow embedding of `src/json.rs` (a nom-based JSON parser) and proofs of the
specification claims about it.

The Rust source builds the parser from nom 7 combinators over `&str` with the
default error type `nom::error::Error<&str>` (the `IResult<&str, _>` alias).
We model:

* input `&str` slices as `List Char` (the parser only ever moves forward, so a
  slice is exactly the remaining suffix of characters);
* `nom::error::Error { input, code }` as `NomErr` below, holding the remaining
  input at the failure point and an `ErrorKind`.  Crucially, the default error
  type's `ContextError` implementation *discards* context labels
  (`add_context` returns the inner error unchanged), so `context(name, p)`
  behaves exactly like `p`; our `context` mirrors that;
* `nom::Err` as `NomExc` below: `Err::Error` (recoverable, constructor `err`)
  and `Err::Failure` (fatal, constructor `fail`).  The one source of
  `Err::Failure` in this program is the `cut(digit1)` on exponent digits
  inside `recognize_float`, reached through `double`; `alt` and
  `separated_list0` recover only from `Err::Error` and propagate
  `Err::Failure`, which the model mirrors;
* recursion between `value`/`array`/`object` with a fuel parameter, structural
  in the fuel so that everything evaluates by `rfl`/`decide`; fuel
  `input.length + 1` is proven sufficient (the termination claim).
-/

/-- Error kinds of the nom error codes this program can produce
(`ErrorKind::Tag`, `ErrorKind::Float`, `ErrorKind::SeparatedList`), plus a
`fuel` marker used only when the fuel parameter of our embedding runs out —
proven unreachable for fuel above the input length. -/
inductive ErrorKind where
  | tag
  | float
  | sepList
  | fuel
  deriving DecidableEq

/-- Model of `nom::error::Error<&str>`: the remaining input at the failure
point together with an error kind.  This type has no context-label field:
its `ContextError::add_context` returns the inner error unchanged, so the
rule names passed to `context` never reach the caller. -/
structure NomErr where
  input : List Char
  kind : ErrorKind
  deriving DecidableEq

/-- Model of `nom::Err` (without the streaming-only `Incomplete` arm, which
`complete` combinators never produce): `err` is `Err::Error`, the
recoverable failure that `alt` and `separated_list0` backtrack over, and
`fail` is `Err::Failure`, which aborts those combinators.  In this program
`Err::Failure` arises only from the `cut(digit1)` on exponent digits in
`recognize_float` (see `doubleQ`). -/
inductive NomExc where
  | err (e : NomErr)
  | fail (e : NomErr)
  deriving DecidableEq

/-- Whether a nom failure is the fatal `Err::Failure` arm. -/
def NomExc.isFatal : NomExc → Bool
  | .err _ => false
  | .fail _ => true

/-- Result of a nom parser: either an `Err`, or the remaining input paired
with the parsed output (nom's `Ok((rest, output))`). -/
abbrev PResult (α : Type) := Except NomExc (List Char × α)

/-- A nom parser over `&str`, modeled on the remaining input. -/
abbrev Parser (α : Type) := List Char → PResult α

/-- Characters accepted by nom's `multispace0`: space, tab, carriage return,
line feed. -/
def isMultispaceChar (c : Char) : Bool :=
  c = ' ' || c = '\t' || c = '\n' || c = '\r'

/-- Model of `nom::character::complete::multispace0`: consumes the longest
blank prefix and never fails.  The Rust combinator returns the matched slice;
every call site in `json.rs` discards it, so we return `Unit`. -/
def multispace0 : Parser Unit := fun i =>
  .ok (i.dropWhile isMultispaceChar, ())

/-- Model of `nom::bytes::complete::tag(t)`: succeeds iff `t` is a prefix of
the input, consuming it; otherwise fails with `ErrorKind::Tag` at the current
input. -/
def tag (t : List Char) : Parser (List Char) := fun i =>
  if t.isPrefixOf i then .ok (i.drop t.length, t) else .error (.err ⟨i, .tag⟩)

/-- Model of `nom::bytes::complete::take_till(p)`: consumes characters until
`p` holds (or the input ends); never fails. -/
def takeTill (p : Char → Bool) : Parser (List Char) := fun i =>
  .ok (i.dropWhile (fun c => !p c), i.takeWhile (fun c => !p c))

/-- Model of `nom::combinator::map`. -/
def pmap (f : α → β) (p : Parser α) : Parser β := fun i =>
  match p i with
  | .error e => .error e
  | .ok (r, a) => .ok (r, f a)

/-- Model of `nom::combinator::value`. -/
def pvalue (v : β) (p : Parser α) : Parser β := pmap (fun _ => v) p

/-- Model of `nom::sequence::delimited(a, b, c)`. -/
def delimited (a : Parser α) (b : Parser β) (c : Parser γ) : Parser β := fun i =>
  match a i with
  | .error e => .error e
  | .ok (i1, _) =>
    match b i1 with
    | .error e => .error e
    | .ok (i2, x) =>
      match c i2 with
      | .error e => .error e
      | .ok (i3, _) => .ok (i3, x)

/-- Model of `nom::sequence::separated_pair(a, sep, b)`. -/
def separatedPair (a : Parser α) (sep : Parser γ) (b : Parser β) :
    Parser (α × β) := fun i =>
  match a i with
  | .error e => .error e
  | .ok (i1, x) =>
    match sep i1 with
    | .error e => .error e
    | .ok (i2, _) =>
      match b i2 with
      | .error e => .error e
      | .ok (i3, y) => .ok (i3, (x, y))

/-- Model of a two-way `nom::branch::alt`: try `p`; on a recoverable
`Err::Error` try `q` at the same input; an `Err::Failure` aborts the chain
(nom's `res => res` arm returns it without trying further alternatives).
With the default error type, `Error::or` keeps the second error and the
final `append(_, ErrorKind::Alt, e)` returns `e` unchanged, so a fully
failed chain reports the *last* alternative's error, which is exactly what
nesting `alt2` produces. -/
def alt2 (p q : Parser α) : Parser α := fun i =>
  match p i with
  | .ok x => .ok x
  | .error (.fail e) => .error (.fail e)
  | .error (.err _) => q i

/-- Model of `nom::error::context(label, p)` at the default error type
`nom::error::Error`: `add_context` returns the inner error unchanged, so the
combinator is the identity on the wrapped parser and the label is discarded. -/
def context (_label : String) (p : Parser α) : Parser α := p

/-- Numeric value of a run of decimal digit characters. -/
def digitsToNat (ds : List Char) : Nat :=
  ds.foldl (fun n c => 10 * n + (c.toNat - '0'.toNat)) 0

/-- Exact rational value of a decimal float literal broken into sign, integer
digits, fraction digits and exponent.  The Rust code stores an IEEE-754
`f64`; we model the number payload by the exact rational value of the
literal, which coincides with the `f64` on every literal whose value is
exactly representable (in particular on all inputs appearing in the
specification's examples). -/
def decimalValue (neg : Bool) (int frac : List Char) (exp : Int) : ℚ :=
  let mantNum : Nat := digitsToNat int * 10 ^ frac.length + digitsToNat frac
  let q : ℚ :=
    if 0 ≤ exp then mkRat (mantNum * 10 ^ exp.toNat) (10 ^ frac.length)
    else mkRat mantNum (10 ^ frac.length * 10 ^ (-exp).toNat)
  if neg then -q else q

/-- Sign stage of nom's `recognize_float` grammar (`opt(alt((char('+'),
char('-'))))`), also reused for the exponent sign. -/
def signSplit (i : List Char) : Bool × List Char :=
  if i.head? = some '-' then (true, i.tail)
  else if i.head? = some '+' then (false, i.tail)
  else (false, i)

/-- Fraction stage of the float grammar: consume `.` followed by a digit
run, if present. -/
def fracSplit (i2 : List Char) : List Char × List Char :=
  if i2.head? = some '.' then
    (i2.tail.takeWhile Char.isDigit, i2.tail.dropWhile Char.isDigit)
  else ([], i2)

/-- Exponent stage of `recognize_float`: `opt(tuple((alt((char('e'),
char('E'))), opt(sign), cut(digit1))))`.  `some (exp, rest)` on success or
when no `e`/`E` marker is present; `none` models the `cut(digit1)` firing —
an exponent marker (with optional sign) not followed by digits raises
`Err::Failure`, which `opt` does not catch. -/
def expSplit (i3 : List Char) : Option (Int × List Char) :=
  if i3.head? = some 'e' ∨ i3.head? = some 'E' then
    let s := signSplit i3.tail
    let ds := s.2.takeWhile Char.isDigit
    if ds.isEmpty then none
    else some (if s.1 then -(digitsToNat ds : Int) else (digitsToNat ds : Int),
          s.2.dropWhile Char.isDigit)
  else some ((0 : Int), i3)

/-- Model of nom 7.1's `tag_no_case` prefix test for str input: compare
ASCII-case-insensitively (`Char.toLower` lowercases exactly A–Z). -/
def isPrefixOfNoCase : List Char → List Char → Bool
  | [], _ => true
  | _ :: _, [] => false
  | a :: as, b :: bs => (a.toLower == b.toLower) && isPrefixOfNoCase as bs

/-- Model of `nom::number::complete::double` for `&str` input in nom 7.1:
`recognize_float_or_exceptions` followed by `parse_to` (`f64::from_str`).
`recognize_float` is: optional sign, then digits with an optional `.`
fraction or `.` followed by digits, then an optional `e`/`E` exponent with
optional sign whose digits sit under `cut` — a bare exponent marker raises
`Err::Failure(Error(input, Float))` (the `or_exceptions` wrapper rewrites
every inner error to the original input with `ErrorKind::Float`), which
aborts the surrounding `alt`.  When `recognize_float` fails recoverably,
the case-insensitive spellings `nan`, `infinity`, `inf` are tried in that
order; otherwise the result is `Err::Error(Error(input, Float))`.
`parse_to` cannot fail on a recognized slice, so success always yields a
value.  The `f64` payload is modeled by the exact rational value of the
literal (exact for every literal whose value is representable); the IEEE
special values produced by the `nan`/`infinity`/`inf` spellings have no
rational counterpart and are recorded as `0` — no claim inspects these
payloads, only which alternative matches and how much input is consumed. -/
def doubleQ : Parser ℚ := fun i =>
  let s := signSplit i
  let int := s.2.takeWhile Char.isDigit
  let i2 := s.2.dropWhile Char.isDigit
  let fr := fracSplit i2
  if int.isEmpty && fr.1.isEmpty then
    if isPrefixOfNoCase "nan".data i then .ok (i.drop 3, 0)
    else if isPrefixOfNoCase "infinity".data i then .ok (i.drop 8, 0)
    else if isPrefixOfNoCase "inf".data i then .ok (i.drop 3, 0)
    else .error (.err ⟨i, .float⟩)
  else
    match expSplit fr.2 with
    | none => .error (.fail ⟨i, .float⟩)
    | some ex => .ok (ex.2, decimalValue s.1 int fr.1 ex.1)

/-- Model of `parse_string`:
`context("string", delimited(tag("\""), take_till(|c| c == '"'), tag("\"")))`.
Returns the characters strictly between the quotes; no escape processing. -/
def parse_string : Parser (List Char) :=
  context "string"
    (delimited (tag ['"']) (takeTill (fun c => c = '"')) (tag ['"']))

/-- Model of `parse_bool`:
`alt((value(true, tag("true")), value(false, tag("false"))))`. -/
def parse_bool : Parser Bool :=
  alt2 (pvalue true (tag "true".data)) (pvalue false (tag "false".data))

/-- The `JsonValue` enum of `json.rs`.  `Number(f64)` is modeled with the
exact rational value of the literal (see `decimalValue`); `Str`/`Object`
keys use Lean `String` for Rust `String`.  `Object(HashMap<_, _>)` is
modeled as an association list with unique keys built by `hashInsert`
(last write wins); the claims never compare objects that differ only in
iteration order. -/
inductive JsonValue where
  | Number : ℚ → JsonValue
  | Str : String → JsonValue
  | Bool : Bool → JsonValue
  | Null : JsonValue
  | Object : List (String × JsonValue) → JsonValue
  | Array : List JsonValue → JsonValue

/-- Model of `parse_null`: `value(JsonValue::Null, tag("null"))`. -/
def parse_null : Parser JsonValue :=
  pvalue JsonValue.Null (tag "null".data)

/-- Model of `HashMap::insert`: replace the binding for `k` if present,
otherwise add it.  Last write wins, keys stay unique. -/
def hashInsert (m : List (String × JsonValue)) (k : String) (v : JsonValue) :
    List (String × JsonValue) :=
  match m with
  | [] => [(k, v)]
  | (k', v') :: rest =>
    if k' = k then (k, v) :: rest else (k', v') :: hashInsert rest k v

/-- Value of the last pair with key `k` in a parsed key/value sequence, if
any — written from the claim: "the later occurrence overwrites the earlier
one in the resulting mapping". -/
def lastVal (ps : List (List Char × JsonValue)) (k : String) : Option JsonValue :=
  ps.foldl (fun acc kv => if kv.1.asString = k then some kv.2 else acc) none

/-- The fold in `parse_object` building the `HashMap` from the parsed
key/value pairs: `for (k, v) in pairs { map.insert(k.to_string(), v); }`. -/
def insertAll (pairs : List (List Char × JsonValue)) : List (String × JsonValue) :=
  pairs.foldl (fun m kv => hashInsert m kv.1.asString kv.2) []

/-- Loop of `nom::multi::separated_list0` after the first element: try the
separator (stop on failure), enforce nom's progress check (a separator that
consumes nothing yields `ErrorKind::SeparatedList`), then try the element,
backtracking to before the separator if it fails.  The fuel argument makes
the loop structurally recursive; it is proven sufficient above the input
length. -/
def sepList0Loop (sep : Parser α) (elem : Parser β) :
    Nat → List Char → List β → PResult (List β)
  | 0, i, _ => .error (.err ⟨i, .fuel⟩)
  | fuel+1, i, acc =>
    match sep i with
    | .error (.err _) => .ok (i, acc)
    | .error (.fail e) => .error (.fail e)
    | .ok (i1, _) =>
      if i1.length = i.length then .error (.err ⟨i1, .sepList⟩)
      else
        match elem i1 with
        | .error (.err _) => .ok (i, acc)
        | .error (.fail e) => .error (.fail e)
        | .ok (i2, x) => sepList0Loop sep elem fuel i2 (acc ++ [x])

/-- Model of `nom::multi::separated_list0(sep, elem)`: an empty list if the
first element fails with a recoverable `Err::Error`, otherwise the loop;
an `Err::Failure` from the element or the separator propagates (nom's
`Err(e) => return Err(e)` arms). -/
def sepList0 (sep : Parser α) (elem : Parser β) (fuel : Nat) : Parser (List β) :=
  fun i =>
    match elem i with
    | .error (.err _) => .ok (i, [])
    | .error (.fail e) => .error (.fail e)
    | .ok (i1, x) => sepList0Loop sep elem fuel i1 [x]

/-- Model of `parse_array` with the recursive `parse` call abstracted as `p`:
`context("array", delimited(tag("["), separated_list0(tag(","),
delimited(multispace0, parse, multispace0)), tag("]")))`. -/
def parse_arrayWith (p : Parser JsonValue) (fuel : Nat) : Parser (List JsonValue) :=
  context "array"
    (delimited (tag ['['])
      (sepList0 (tag [',']) (delimited multispace0 p multispace0) fuel)
      (tag [']']))

/-- Model of `parse_object` with the recursive `parse` call abstracted as
`p`: pairs are `separated_pair(delimited(multispace0, parse_string,
multispace0), tag(":"), delimited(multispace0, parse, multispace0))`,
separated by `tag(",")`, delimited by braces, folded into the map. -/
def parse_objectWith (p : Parser JsonValue) (fuel : Nat) :
    Parser (List (String × JsonValue)) :=
  context "object"
    (delimited (tag ['{'])
      (pmap insertAll
        (sepList0 (tag [','])
          (separatedPair (delimited multispace0 parse_string multispace0)
            (tag [':'])
            (delimited multispace0 p multispace0))
          fuel))
      (tag ['}']))

/-- Model of the top-level `parse`, fuel-indexed: `context("parse",
delimited(multispace0, alt((object, array, double, string, bool, null)),
multispace0))`, with each composite rule at fuel `f`.  Structural recursion
on the fuel, so closed inputs evaluate by `rfl`. -/
def parseF : Nat → Parser JsonValue
  | 0 => fun i => .error (.err ⟨i, .fuel⟩)
  | f+1 =>
    context "parse"
      (delimited multispace0
        (alt2 (pmap JsonValue.Object (parse_objectWith (parseF f) f))
          (alt2 (pmap JsonValue.Array (parse_arrayWith (parseF f) f))
            (alt2 (pmap JsonValue.Number doubleQ)
              (alt2 (pmap (fun s => JsonValue.Str s.asString) parse_string)
                (alt2 (pmap JsonValue.Bool parse_bool) parse_null)))))
        multispace0)

/-- `parse_array` of `json.rs` at fuel `f` (the fuel a call from
`parseF (f+1)` passes down). -/
def parse_arrayF (f : Nat) : Parser (List JsonValue) :=
  parse_arrayWith (parseF f) f

/-- `parse_object` of `json.rs` at fuel `f`. -/
def parse_objectF (f : Nat) : Parser (List (String × JsonValue)) :=
  parse_objectWith (parseF f) f

/-- The public `parse` entry point of `json.rs`, at the canonical sufficient
fuel `input.length + 1`. -/
def parse (s : List Char) : PResult JsonValue :=
  parseF (s.length + 1) s

/-- The six alternatives of the top-level `alt` in `parse`, in source order:
object, array, number, string, boolean, null, each wrapped in its
`JsonValue` constructor exactly as in the source. -/
def valueAlternatives (f : Nat) : List (Parser JsonValue) :=
  [pmap JsonValue.Object (parse_objectF f),
   pmap JsonValue.Array (parse_arrayF f),
   pmap JsonValue.Number doubleQ,
   pmap (fun s => JsonValue.Str s.asString) parse_string,
   pmap JsonValue.Bool parse_bool,
   parse_null]

/-- Specification-side description of alternative dispatch, written from the
claim: apply each parser of the list to the *same* input in order and return
the first success; a recoverable error is remembered (nom's default
`Error::or` keeps the later error, so an exhausted list reports the last
alternative's error) and a fatal `Err::Failure` stops the chain. -/
def tryInOrder (ps : List (Parser α)) (i : List Char) (last : NomExc) :
    PResult α :=
  match ps with
  | [] => .error last
  | p :: rest =>
    match p i with
    | .ok x => .ok x
    | .error (.fail e) => .error (.fail e)
    | .error (.err e) => tryInOrder rest i (.err e)

/-- Whether a parser result is a success. -/
def isOk : PResult α → Bool
  | .ok _ => true
  | .error _ => false

/-! ## Theorems -/

/-- C8: empty containers parse successfully: `parse("[]")` yields an array
with zero elements and `parse("{}")` yields an object with an empty
mapping, each consuming the whole input. -/
theorem parse_empty_containers :
    parse "[]".data = .ok ([], .Array []) ∧
    parse "\x7b\x7d".data = .ok ([], .Object []) := ⟨by rfl, by rfl⟩

/-- C10: containers whose delimiters enclose only whitespace fail:
`parse("[ ]")` and `parse("{ }")` both return errors (the zero-element
branch of `separated_list0` does not consume the interior whitespace, so the
closing-delimiter `tag` fails; the error reported is the last alternative's
(`null`) tag failure at the start of the input). -/
theorem parse_blank_containers_fail :
    parse "[ ]".data = .error (.err ⟨"[ ]".data, .tag⟩) ∧
    parse "\x7b \x7d".data = .error (.err ⟨"\x7b \x7d".data, .tag⟩) := ⟨by rfl, by rfl⟩

/-- C2 (counterexample): `parse("\"abc")` does not return an error rooted at
the `string` rule at the deepest failure position.  The returned error is
the last alternative's (`null`) tag failure, whose stored input is the
*entire* input — position 0, not position 4 where the string rule's closing
quote fails — and the error value carries no rule name at all (the default
nom error type drops `context` labels). -/
theorem parse_unterminated_string_error_untagged :
    parse "\"abc".data = .error (.err ⟨"\"abc".data, ErrorKind.tag⟩) := by rfl

/-- C2 (amended): a failed top-level parse returns a single
`nom::error::Error` holding only the remaining input at one failure point
and an error kind, the rule-name contexts being discarded by the default
error type; for the unterminated string `"abc` the result is the `Tag`
error of the final (`null`) alternative at the start of the input, while
the `string` rule's own failure — the deepest one, at end of input — is
computed but not propagated. -/
theorem parse_unterminated_string_behavior :
    parse "\"abc".data = .error (.err ⟨"\"abc".data, ErrorKind.tag⟩) ∧
    parse_string "\"abc".data = .error (.err ⟨[], ErrorKind.tag⟩) := ⟨by rfl, by rfl⟩

/-- C6 (counterexample): `parse("[1,2,]")` does fail, but the returned
error is not context-tagged with the `array` rule: it is the last
alternative's (`null`) `Tag` failure at position 0 with no rule name (the
default nom error type drops `context` labels). -/
theorem parse_trailing_comma_error_untagged :
    parse "[1,2,]".data = .error (.err ⟨"[1,2,]".data, ErrorKind.tag⟩) := by rfl

/-- C6 (amended): a trailing comma before `]` is a failure and no value is
produced: `parse("[1,2,]")` returns the last alternative's `Tag` error at
the start of the input (context labels are discarded by the default error
type).  The `array` rule itself fails at the `,]` suffix: `separated_list0`
backtracks to before the trailing comma and the closing-bracket `tag`
fails there. -/
theorem parse_trailing_comma_fails :
    parse "[1,2,]".data = .error (.err ⟨"[1,2,]".data, ErrorKind.tag⟩) ∧
    parse_arrayF 7 "[1,2,]".data = .error (.err ⟨",]".data, ErrorKind.tag⟩) :=
  ⟨by rfl, by rfl⟩

/-- C7 (counterexample): the number alternative is not confined to inputs
whose first character is a digit or a sign: nom's float grammar also
accepts a literal starting with a decimal point, so `parse(".5")` succeeds
as `Number(0.5)` although `'.'` is neither a digit nor a sign. -/
theorem number_first_char_not_digit_or_sign :
    parse ".5".data = .ok ([], .Number (mkRat 1 2)) ∧
    (('.').isDigit || ('.' == '+') || ('.' == '-')) = false :=
  ⟨by rfl, by rfl⟩

/-- C1: the top-level value parser tries the six alternatives — object,
array, number, string, boolean, null, in that fixed order — against the
same starting position (the input after skipping leading whitespace) and
returns the result of the first alternative that matches (with trailing
whitespace then skipped).  On failure the faithful `alt` semantics apply:
a fatal `Err::Failure` (only the number rule's exponent `cut` can raise
one) stops the chain and is returned, and if every alternative fails
recoverably the last (`null`) alternative's error is returned. -/
theorem parse_tries_alternatives_in_order (f : Nat) (i : List Char) :
    parseF (f+1) i =
      match tryInOrder (valueAlternatives f) (i.dropWhile isMultispaceChar)
          (.err ⟨i.dropWhile isMultispaceChar, .tag⟩) with
      | .ok (r, v) => .ok (r.dropWhile isMultispaceChar, v)
      | .error e => .error e := by
  simp only [parseF, context, delimited, multispace0, valueAlternatives,
    tryInOrder, parse_objectF, parse_arrayF, alt2]
  cases h1 : pmap JsonValue.Object (parse_objectWith (parseF f) f)
      (i.dropWhile isMultispaceChar) with
  | ok x => simp [h1, multispace0]
  | error x1 =>
  cases x1 with
  | fail e1 => simp [h1]
  | err e1 =>
  simp only [h1]
  cases h2 : pmap JsonValue.Array (parse_arrayWith (parseF f) f)
      (i.dropWhile isMultispaceChar) with
  | ok x => simp [h2, multispace0]
  | error x2 =>
  cases x2 with
  | fail e2 => simp [h2]
  | err e2 =>
  simp only [h2]
  cases h3 : pmap JsonValue.Number doubleQ (i.dropWhile isMultispaceChar) with
  | ok x => simp [h3, multispace0]
  | error x3 =>
  cases x3 with
  | fail e3 => simp [h3]
  | err e3 =>
  simp only [h3]
  cases h4 : pmap (fun s => JsonValue.Str s.asString) parse_string
      (i.dropWhile isMultispaceChar) with
  | ok x => simp [h4, multispace0]
  | error x4 =>
  cases x4 with
  | fail e4 => simp [h4]
  | err e4 =>
  simp only [h4]
  cases h5 : pmap JsonValue.Bool parse_bool (i.dropWhile isMultispaceChar) with
  | ok x => simp [h5, multispace0]
  | error x5 =>
  cases x5 with
  | fail e5 => simp [h5]
  | err e5 =>
  simp only [h5]
  cases h6 : parse_null (i.dropWhile isMultispaceChar) with
  | ok x => simp [h6, multispace0]
  | error x6 =>
  cases x6 with
  | fail e6 => simp [h6]
  | err e6 => simp [h6]

lemma takeWhile_append_stop {p : Char → Bool} {text rest : List Char} {stop : Char}
    (h : ∀ c ∈ text, p c = true) (hs : p stop = false) :
    (text ++ stop :: rest).takeWhile p = text := by
  induction text with
  | nil => simp [List.takeWhile, hs]
  | cons a t ih =>
    simp only [List.cons_append, List.takeWhile]
    rw [h a (by simp)]
    simp [ih (fun c hc => h c (by simp [hc]))]

lemma dropWhile_append_stop {p : Char → Bool} {text rest : List Char} {stop : Char}
    (h : ∀ c ∈ text, p c = true) (hs : p stop = false) :
    (text ++ stop :: rest).dropWhile p = stop :: rest := by
  induction text with
  | nil => simp [List.dropWhile, hs]
  | cons a t ih =>
    simp only [List.cons_append, List.dropWhile]
    rw [h a (by simp)]
    simp [ih (fun c hc => h c (by simp [hc]))]

lemma tag_quote_cons (xs : List Char) :
    tag ['"'] ('"' :: xs) = .ok (xs, ['"']) := by
  simp [tag, List.isPrefixOf]

/-- C3: the string rule matches a quote, then all characters up to but not
including the next quote, then that quote, with no escape processing: for
every quote-free `text`, parsing `"text"rest` yields `text` and consumes
through the closing quote; and on the input `"a\"b"` the string terminates
at the quote that follows the backslash, yielding the two characters
`a\` and leaving `b"` unconsumed, rather than decoding the escape. -/
theorem parse_string_no_escape :
    (∀ text rest : List Char, (∀ c ∈ text, c ≠ '"') →
      parse_string ('"' :: (text ++ '"' :: rest)) = .ok (rest, text)) ∧
    parse_string "\"a\\\"b\"".data = .ok ("b\"".data, "a\\".data) := by
  constructor
  · intro text rest h
    have h1 : ∀ c ∈ text, (!(c = '"' : Bool)) = true := by
      intro c hc
      simp [h c hc]
    simp only [parse_string, context, delimited, takeTill, tag_quote_cons]
    rw [takeWhile_append_stop h1 (by simp), dropWhile_append_stop h1 (by simp)]
    simp [tag_quote_cons]
  · rfl

/-- Witness for C3 at the concrete quote-free text `abc`. -/
theorem parse_string_no_escape_witness :
    parse_string ('"' :: (['a', 'b', 'c'] ++ '"' :: [])) = .ok ([], ['a', 'b', 'c']) :=
  parse_string_no_escape.1 ['a', 'b', 'c'] [] (by decide)

lemma tag_ok_isPrefixOf {t i : List Char} {x : List Char × List Char}
    (h : tag t i = .ok x) : t.isPrefixOf i = true := by
  unfold tag at h
  split at h
  · assumption
  · exact absurd h (by simp)

lemma isPrefixOf_cons_head {a : Char} {as i : List Char}
    (h : (a :: as).isPrefixOf i = true) : i.head? = some a := by
  cases i with
  | nil => simp [List.isPrefixOf] at h
  | cons c r =>
    simp only [List.isPrefixOf, Bool.and_eq_true, beq_iff_eq] at h
    simp [h.1]

lemma obj_ok_head {p : Parser JsonValue} {fl : Nat} {i : List Char}
    (h : isOk (parse_objectWith p fl i) = true) : i.head? = some '{' := by
  cases htag : tag ['{'] i with
  | error e => simp [parse_objectWith, context, delimited, htag, isOk] at h
  | ok x => exact isPrefixOf_cons_head (tag_ok_isPrefixOf htag)

lemma arr_ok_head {p : Parser JsonValue} {fl : Nat} {i : List Char}
    (h : isOk (parse_arrayWith p fl i) = true) : i.head? = some '[' := by
  cases htag : tag ['['] i with
  | error e => simp [parse_arrayWith, context, delimited, htag, isOk] at h
  | ok x => exact isPrefixOf_cons_head (tag_ok_isPrefixOf htag)

lemma str_ok_head {i : List Char}
    (h : isOk (parse_string i) = true) : i.head? = some '"' := by
  cases htag : tag ['"'] i with
  | error e => simp [parse_string, context, delimited, htag, isOk] at h
  | ok x => exact isPrefixOf_cons_head (tag_ok_isPrefixOf htag)

lemma bool_ok_head {i : List Char}
    (h : isOk (parse_bool i) = true) :
    i.head? = some 't' ∨ i.head? = some 'f' := by
  unfold parse_bool alt2 at h
  cases ht : pvalue true (tag "true".data) i with
  | ok x =>
    left
    cases htag : tag "true".data i with
    | error e => simp [pvalue, pmap, htag] at ht
    | ok y => exact isPrefixOf_cons_head (tag_ok_isPrefixOf htag)
  | error e =>
    rw [ht] at h
    cases e with
    | fail e0 => simp [isOk] at h
    | err e0 =>
      cases hf : pvalue false (tag "false".data) i with
      | ok x =>
        right
        cases htag : tag "false".data i with
        | error e' => simp [pvalue, pmap, htag] at hf
        | ok y => exact isPrefixOf_cons_head (tag_ok_isPrefixOf htag)
      | error e' => simp [hf, isOk] at h

lemma null_ok_head {i : List Char}
    (h : isOk (parse_null i) = true) : i.head? = some 'n' := by
  unfold parse_null pvalue pmap at h
  cases htag : tag "null".data i with
  | error e => simp [htag, isOk] at h
  | ok y => exact isPrefixOf_cons_head (tag_ok_isPrefixOf htag)

lemma double_ok_head {c : Char} {r : List Char}
    (h : isOk (doubleQ (c :: r)) = true) :
    c.isDigit = true ∨ c = '+' ∨ c = '-' ∨ c = '.' ∨
      c.toLower = 'n' ∨ c.toLower = 'i' := by
  by_contra hc
  push_neg at hc
  obtain ⟨hd, hp, hm, hdot, hn, hi⟩ := hc
  have hd' : c.isDigit = false := by
    cases hb : c.isDigit
    · rfl
    · exact absurd hb hd
  have hnb : (('n' : Char).toLower == c.toLower) = false := by
    rw [show ('n' : Char).toLower = 'n' from rfl]
    exact beq_eq_false_iff_ne.mpr (fun he => hn he.symm)
  have hib : (('i' : Char).toLower == c.toLower) = false := by
    rw [show ('i' : Char).toLower = 'i' from rfl]
    exact beq_eq_false_iff_ne.mpr (fun he => hi he.symm)
  have hn' : ¬('n' = c.toLower) := fun he => hn he.symm
  have hi' : ¬('i' = c.toLower) := fun he => hi he.symm
  simp [doubleQ, signSplit, fracSplit, List.takeWhile, List.dropWhile,
    isPrefixOfNoCase, hd', hp, hm, hdot, hnb, hib, hn', hi', isOk] at h

/-- The number alternative cannot match at an input whose first two
characters are `nu`: `recognize_float` needs a digit or `.`, and the only
exception spellings starting with `n`/`N` are the case variants of `nan`,
whose second character is `a`/`A`. -/
lemma doubleQ_nok_null {rest : List Char} :
    isOk (doubleQ ('n' :: 'u' :: rest)) = false := by
  simp [doubleQ, signSplit, fracSplit, List.takeWhile, List.dropWhile,
    isPrefixOfNoCase, isOk,
    show ('n' : Char).isDigit = false from rfl,
    show ('a' : Char).toLower = 'a' from rfl,
    show ('u' : Char).toLower = 'u' from rfl,
    show ('i' : Char).toLower = 'i' from rfl]

/-- A successful `parse_null` exposes the literal `null` at the head of
the input. -/
lemma parse_null_ok_shape {i : List Char} {x : List Char × JsonValue}
    (h : parse_null i = .ok x) : ∃ rest, i = 'n' :: 'u' :: 'l' :: 'l' :: rest := by
  unfold parse_null pvalue pmap at h
  cases htag : tag "null".data i with
  | error e => rw [htag] at h; exact absurd h (by simp)
  | ok y =>
    have hp := tag_ok_isPrefixOf htag
    cases i with
    | nil => simp [List.isPrefixOf] at hp
    | cons a t =>
      cases t with
      | nil => simp [List.isPrefixOf] at hp
      | cons b t2 =>
        cases t2 with
        | nil => simp [List.isPrefixOf] at hp
        | cons d t3 =>
          cases t3 with
          | nil => simp [List.isPrefixOf] at hp
          | cons e2 t4 =>
            simp only [List.isPrefixOf, Bool.and_eq_true, beq_iff_eq] at hp
            obtain ⟨h1, h2, h3, h4, -⟩ := hp
            subst h1; subst h2; subst h3; subst h4
            exact ⟨t4, rfl⟩

lemma objF_ok_head {f : Nat} {i : List Char}
    (h : isOk (parse_objectF f i) = true) : i.head? = some '{' := by
  unfold parse_objectF at h
  exact obj_ok_head h

lemma arrF_ok_head {f : Nat} {i : List Char}
    (h : isOk (parse_arrayF f i) = true) : i.head? = some '[' := by
  unfold parse_arrayF at h
  exact arr_ok_head h

lemma not_isOk {α : Type} {z : PResult α} {P : Prop}
    (h : isOk z = true → P) (hn : ¬P) : isOk z = false := by
  cases hz : isOk z
  · rfl
  · exact absurd (h hz) hn

lemma toNat_le_one (b : Bool) : b.toNat ≤ 1 := by cases b <;> decide

/-- C7 (amended): the six alternatives are mutually exclusive — at every
input position at most one of them matches.  The first-character sets are
`\x7b` for object, `[` for array, digit/`+`/`-`/`.`/`n`/`N`/`i`/`I` for
number (the letters from nom's `nan`/`inf`/`infinity` spellings), `"` for
string, `t`/`f` for boolean and `n` for null; the only overlap, `n`,
cannot make both number and null match at once, because null requires the
prefix `null` while the number exception spellings starting with `n`
require `na`/`nA`.  Hence the priority order of `alt` never changes which
value is parsed. -/
theorem value_alternatives_mutually_exclusive (f : Nat) (i : List Char) :
    (isOk (parse_objectF f i)).toNat + (isOk (parse_arrayF f i)).toNat
      + (isOk (doubleQ i)).toNat + (isOk (parse_string i)).toNat
      + (isOk (parse_bool i)).toNat + (isOk (parse_null i)).toNat ≤ 1 := by
  cases i with
  | nil =>
    have h1 : isOk (parse_objectF f []) = false := rfl
    have h2 : isOk (parse_arrayF f []) = false := rfl
    have h3 : isOk (doubleQ []) = false := rfl
    have h4 : isOk (parse_string []) = false := rfl
    have h5 : isOk (parse_bool []) = false := rfl
    have h6 : isOk (parse_null []) = false := rfl
    simp [h1, h2, h3, h4, h5, h6]
  | cons c r =>
    have hobj : c ≠ '{' → isOk (parse_objectF f (c :: r)) = false := fun hn =>
      not_isOk (fun hz => by simpa using objF_ok_head hz) hn
    have harr : c ≠ '[' → isOk (parse_arrayF f (c :: r)) = false := fun hn =>
      not_isOk (fun hz => by simpa using arrF_ok_head hz) hn
    have hstr : c ≠ '"' → isOk (parse_string (c :: r)) = false := fun hn =>
      not_isOk (fun hz => by simpa using str_ok_head hz) hn
    have hbool : ¬(c = 't' ∨ c = 'f') → isOk (parse_bool (c :: r)) = false := fun hn =>
      not_isOk (fun hz => by simpa using bool_ok_head hz) hn
    have hnull : c ≠ 'n' → isOk (parse_null (c :: r)) = false := fun hn =>
      not_isOk (fun hz => by simpa using null_ok_head hz) hn
    have hnum : ¬(c.isDigit = true ∨ c = '+' ∨ c = '-' ∨ c = '.' ∨
        c.toLower = 'n' ∨ c.toLower = 'i') →
        isOk (doubleQ (c :: r)) = false := fun hn =>
      not_isOk (fun hz => double_ok_head hz) hn
    by_cases h1 : c = '{'
    · subst h1
      simp [harr (by decide), hnum (by decide), hstr (by decide),
        hbool (by decide), hnull (by decide)]
      exact toNat_le_one _
    by_cases h2 : c = '['
    · subst h2
      simp [hobj (by decide), hnum (by decide), hstr (by decide),
        hbool (by decide), hnull (by decide)]
      exact toNat_le_one _
    by_cases h3 : c = '"'
    · subst h3
      simp [hobj (by decide), harr (by decide), hnum (by decide),
        hbool (by decide), hnull (by decide)]
      exact toNat_le_one _
    by_cases h4 : c = 't' ∨ c = 'f'
    · have hnumc : isOk (doubleQ (c :: r)) = false := by
        rcases h4 with h4 | h4 <;> (subst h4; exact hnum (by decide))
      have hobjc : isOk (parse_objectF f (c :: r)) = false := by
        rcases h4 with h4 | h4 <;> (subst h4; exact hobj (by decide))
      have harrc : isOk (parse_arrayF f (c :: r)) = false := by
        rcases h4 with h4 | h4 <;> (subst h4; exact harr (by decide))
      have hstrc : isOk (parse_string (c :: r)) = false := by
        rcases h4 with h4 | h4 <;> (subst h4; exact hstr (by decide))
      have hnullc : isOk (parse_null (c :: r)) = false := by
        rcases h4 with h4 | h4 <;> (subst h4; exact hnull (by decide))
      simp [hobjc, harrc, hnumc, hstrc, hnullc]
      exact toNat_le_one _
    by_cases h5 : c = 'n'
    · subst h5
      have hobjc := hobj (by decide)
      have harrc := harr (by decide)
      have hstrc := hstr (by decide)
      have hboolc := hbool (by decide)
      by_cases hnull0 : isOk (parse_null ('n' :: r)) = true
      · have hnum0 : isOk (doubleQ ('n' :: r)) = false := by
          cases hz : parse_null ('n' :: r) with
          | error e => simp [isOk, hz] at hnull0
          | ok z =>
            obtain ⟨rest, hsh⟩ := parse_null_ok_shape hz
            have hr : r = 'u' :: 'l' :: 'l' :: rest := by
              simpa using hsh
            rw [hr]
            exact doubleQ_nok_null
        simp [hobjc, harrc, hstrc, hboolc, hnum0]
        exact toNat_le_one _
      · have hnullc : isOk (parse_null ('n' :: r)) = false := by
          cases hb : isOk (parse_null ('n' :: r))
          · rfl
          · exact absurd hb hnull0
        simp [hobjc, harrc, hstrc, hboolc, hnullc]
        exact toNat_le_one _
    · simp [hobj h1, harr h2, hstr h3, hbool h4, hnull h5]
      exact toNat_le_one _

section ListHelpers

variable {p : Char → Bool}

lemma dropWhile_len_le (l : List Char) : (l.dropWhile p).length ≤ l.length := by
  induction l with
  | nil => simp [List.dropWhile]
  | cons a t ih =>
    simp only [List.dropWhile]
    cases p a
    · simp
    · simp
      omega

lemma dropWhile_append_all {w s : List Char} (h : ∀ c ∈ w, p c = true) :
    (w ++ s).dropWhile p = s.dropWhile p := by
  induction w with
  | nil => simp
  | cons a t ih =>
    simp only [List.cons_append, List.dropWhile, h a (by simp)]
    exact ih (fun c hc => h c (by simp [hc]))

lemma dropWhile_append_ne {l ext : List Char} (h : l.dropWhile p ≠ []) :
    (l ++ ext).dropWhile p = l.dropWhile p ++ ext := by
  induction l with
  | nil => simp [List.dropWhile] at h
  | cons a t ih =>
    simp only [List.cons_append, List.dropWhile]
    cases hp : p a
    · simp
    · simp only [List.dropWhile, hp] at h
      exact ih h

lemma dropWhile_append_nil {l ext : List Char} (h : l.dropWhile p = [])
    (hext : ∀ c ∈ ext, p c = true) : (l ++ ext).dropWhile p = [] := by
  induction l with
  | nil =>
    simp only [List.nil_append]
    induction ext with
    | nil => simp [List.dropWhile]
    | cons a t ih =>
      simp only [List.dropWhile, hext a (by simp)]
      exact ih (fun c hc => hext c (by simp [hc]))
  | cons a t ih =>
    simp only [List.dropWhile] at h ⊢
    cases hp : p a
    · simp [hp] at h
    · simp only [List.cons_append, List.dropWhile, hp] at h ⊢
      exact ih h

lemma takeWhile_append_head {l ext : List Char}
    (h : ∀ c, ext.head? = some c → p c = false) :
    (l ++ ext).takeWhile p = l.takeWhile p := by
  induction l with
  | nil =>
    cases ext with
    | nil => simp
    | cons a t => simp [List.takeWhile, h a rfl]
  | cons a t ih =>
    simp only [List.cons_append, List.takeWhile]
    cases p a <;> simp [ih]

lemma dropWhile_append_head {l ext : List Char}
    (h : ∀ c, ext.head? = some c → p c = false) :
    (l ++ ext).dropWhile p = l.dropWhile p ++ ext := by
  induction l with
  | nil =>
    cases ext with
    | nil => simp
    | cons a t => simp [List.dropWhile, h a rfl]
  | cons a t ih =>
    simp only [List.cons_append, List.dropWhile]
    cases p a <;> simp [ih]

lemma drop_append_of_le {l ext : List Char} {n : Nat} (h : n ≤ l.length) :
    (l ++ ext).drop n = l.drop n ++ ext := by
  induction l generalizing n with
  | nil =>
    simp at h
    simp [h]
  | cons a t ih =>
    cases n with
    | zero => simp
    | succ m =>
      simp only [List.cons_append, List.drop]
      exact ih (by simpa using h)

lemma isPrefixOf_length_le {t i : List Char} (h : t.isPrefixOf i = true) :
    t.length ≤ i.length := by
  induction t generalizing i with
  | nil => simp
  | cons a t' ih =>
    cases i with
    | nil => simp [List.isPrefixOf] at h
    | cons b i' =>
      simp only [List.isPrefixOf, Bool.and_eq_true] at h
      simpa using ih h.2

lemma isPrefixOf_append_true {t i ext : List Char} (h : t.isPrefixOf i = true) :
    t.isPrefixOf (i ++ ext) = true := by
  induction t generalizing i with
  | nil => simp [List.isPrefixOf]
  | cons a t' ih =>
    cases i with
    | nil => simp [List.isPrefixOf] at h
    | cons b i' =>
      simp only [List.isPrefixOf, Bool.and_eq_true] at h
      simp only [List.cons_append, List.isPrefixOf, Bool.and_eq_true]
      exact ⟨h.1, ih h.2⟩

lemma isPrefixOf_append_false {t i ext : List Char}
    (h : t.isPrefixOf i = false)
    (ht : ∀ c ∈ t, isMultispaceChar c = false)
    (hext : ∀ c ∈ ext, isMultispaceChar c = true) :
    t.isPrefixOf (i ++ ext) = false := by
  induction t generalizing i with
  | nil => simp [List.isPrefixOf] at h
  | cons a t' ih =>
    cases i with
    | nil =>
      cases ext with
      | nil => simp [List.isPrefixOf]
      | cons d ds =>
        simp only [List.nil_append, List.isPrefixOf, Bool.and_eq_false_iff]
        left
        have ha : isMultispaceChar a = false := ht a (by simp)
        have hd : isMultispaceChar d = true := hext d (by simp)
        simp only [beq_eq_false_iff_ne, ne_eq]
        intro had
        rw [had, hd] at ha
        exact absurd ha (by simp)
    | cons b i' =>
      simp only [List.isPrefixOf, Bool.and_eq_false_iff] at h
      simp only [List.cons_append, List.isPrefixOf, Bool.and_eq_false_iff]
      rcases h with h | h
      · left; exact h
      · right
        exact ih h (fun c hc => ht c (by simp [hc]))

end ListHelpers

section BlankFacts

lemma blank_cases {c : Char} (h : isMultispaceChar c = true) :
    c = ' ' ∨ c = '\t' ∨ c = '\n' ∨ c = '\r' := by
  simp only [isMultispaceChar, Bool.or_eq_true, decide_eq_true_eq] at h
  tauto

lemma blank_not_digit {c : Char} (h : isMultispaceChar c = true) :
    c.isDigit = false := by
  rcases blank_cases h with h | h | h | h <;> subst h <;> rfl

lemma blank_ne {c c' : Char} (h : isMultispaceChar c = true)
    (h' : isMultispaceChar c' = false) : c ≠ c' := by
  intro he
  rw [he, h'] at h
  exact absurd h (by simp)

lemma blank_head_not_digit {ext : List Char}
    (hext : ∀ c ∈ ext, isMultispaceChar c = true) :
    ∀ c, ext.head? = some c → c.isDigit = false := by
  intro c hc
  cases ext with
  | nil => simp at hc
  | cons a t =>
    simp only [List.head?_cons, Option.some.injEq] at hc
    exact hc ▸ blank_not_digit (hext a (by simp))

end BlankFacts

section TagExt

lemma tag_ok_append {t i ext : List Char} {x : List Char × List Char}
    (h : tag t i = .ok x) : tag t (i ++ ext) = .ok (x.1 ++ ext, x.2) := by
  unfold tag at h ⊢
  split at h
  · next hp =>
    rw [isPrefixOf_append_true hp, if_pos rfl]
    cases h
    simp [drop_append_of_le (isPrefixOf_length_le hp)]
  · exact absurd h (by simp)

lemma tag_err_append {t i ext : List Char} {e : NomExc}
    (h : tag t i = .error e)
    (ht : ∀ c ∈ t, isMultispaceChar c = false)
    (hext : ∀ c ∈ ext, isMultispaceChar c = true) :
    tag t (i ++ ext) = .error (.err ⟨i ++ ext, .tag⟩) := by
  unfold tag at h ⊢
  split at h
  · exact absurd h (by simp)
  · next hp =>
    have hp' : t.isPrefixOf i = false := by
      cases hb : t.isPrefixOf i
      · rfl
      · exact absurd hb hp
    rw [isPrefixOf_append_false hp' ht hext]
    simp

end TagExt

section StageExt

variable {ext : List Char}

lemma signSplit_append (i : List Char)
    (hext : ∀ c ∈ ext, isMultispaceChar c = true) :
    signSplit (i ++ ext) = ((signSplit i).1, (signSplit i).2 ++ ext) := by
  cases i with
  | nil =>
    cases hx : ext with
    | nil => simp [signSplit]
    | cons a t =>
      have ha : isMultispaceChar a = true := hext a (by simp [hx])
      have h1 : a ≠ '-' := blank_ne ha (by decide)
      have h2 : a ≠ '+' := blank_ne ha (by decide)
      simp [signSplit, h1, h2]
  | cons c r =>
    by_cases h1 : c = '-'
    · subst h1; simp [signSplit]
    by_cases h2 : c = '+'
    · subst h2; simp [signSplit]
    · simp [signSplit, h1, h2]

lemma fracSplit_append (i2 : List Char)
    (hext : ∀ c ∈ ext, isMultispaceChar c = true) :
    fracSplit (i2 ++ ext) = ((fracSplit i2).1, (fracSplit i2).2 ++ ext) := by
  cases i2 with
  | nil =>
    cases hx : ext with
    | nil => simp [fracSplit]
    | cons a t =>
      have ha : isMultispaceChar a = true := hext a (by simp [hx])
      have h1 : a ≠ '.' := blank_ne ha (by decide)
      simp [fracSplit, h1]
  | cons c r =>
    by_cases h1 : c = '.'
    · subst h1
      simp [fracSplit, takeWhile_append_head (blank_head_not_digit hext),
        dropWhile_append_head (blank_head_not_digit hext)]
    · simp [fracSplit, h1]

lemma expSplit_append (i3 : List Char)
    (hext : ∀ c ∈ ext, isMultispaceChar c = true) :
    expSplit (i3 ++ ext) = (expSplit i3).map (fun ex => (ex.1, ex.2 ++ ext)) := by
  cases i3 with
  | nil =>
    cases hx : ext with
    | nil => simp [expSplit]
    | cons a t =>
      have ha : isMultispaceChar a = true := hext a (by simp [hx])
      have h1 : a ≠ 'e' := blank_ne ha (by decide)
      have h2 : a ≠ 'E' := blank_ne ha (by decide)
      simp [expSplit, h1, h2]
  | cons c r =>
    by_cases h1 : c = 'e' ∨ c = 'E'
    · have hcond : ((c :: r) ++ ext).head? = some 'e' ∨ ((c :: r) ++ ext).head? = some 'E' := by
        rcases h1 with h1 | h1 <;> subst h1 <;> simp
      have hcond' : (c :: r).head? = some 'e' ∨ (c :: r).head? = some 'E' := by
        rcases h1 with h1 | h1 <;> subst h1 <;> simp
      rw [expSplit, if_pos hcond, expSplit, if_pos hcond']
      simp only [List.cons_append, List.tail_cons]
      rw [signSplit_append r hext]
      rw [takeWhile_append_head (blank_head_not_digit hext)]
      by_cases hds : ((signSplit r).2.takeWhile Char.isDigit).isEmpty
      · simp [hds]
      · simp only [hds, if_false, Bool.false_eq_true]
        rw [dropWhile_append_head (blank_head_not_digit hext)]
        simp [hds]
    · have h1e : c ≠ 'e' := fun hx => h1 (Or.inl hx)
      have h1E : c ≠ 'E' := fun hx => h1 (Or.inr hx)
      rw [expSplit, if_neg (by simp [h1e, h1E]), expSplit,
        if_neg (by simp [h1e, h1E])]
      simp

lemma blank_toLower {b : Char} (h : isMultispaceChar b = true) :
    b.toLower = b := by
  simp only [isMultispaceChar, Bool.or_eq_true, decide_eq_true_eq] at h
  rcases h with ((h | h) | h) | h <;> subst h <;> rfl

lemma isPrefixOfNoCase_length_le {p i : List Char}
    (h : isPrefixOfNoCase p i = true) : p.length ≤ i.length := by
  induction p generalizing i with
  | nil => simp
  | cons a as ih =>
    cases i with
    | nil => simp [isPrefixOfNoCase] at h
    | cons b bs =>
      simp only [isPrefixOfNoCase, Bool.and_eq_true] at h
      simpa using ih h.2

lemma isPrefixOfNoCase_append_true {p i : List Char} (ext : List Char)
    (h : isPrefixOfNoCase p i = true) :
    isPrefixOfNoCase p (i ++ ext) = true := by
  induction p generalizing i with
  | nil => simp [isPrefixOfNoCase]
  | cons a as ih =>
    cases i with
    | nil => simp [isPrefixOfNoCase] at h
    | cons b bs =>
      simp only [isPrefixOfNoCase, Bool.and_eq_true] at h
      simp only [List.cons_append, isPrefixOfNoCase, Bool.and_eq_true]
      exact ⟨h.1, ih h.2⟩

lemma isPrefixOfNoCase_append_false {p i ext : List Char}
    (hp : ∀ c ∈ p, isMultispaceChar c.toLower = false)
    (hext : ∀ c ∈ ext, isMultispaceChar c = true)
    (h : isPrefixOfNoCase p i = false) :
    isPrefixOfNoCase p (i ++ ext) = false := by
  induction p generalizing i with
  | nil => simp [isPrefixOfNoCase] at h
  | cons a as ih =>
    cases i with
    | nil =>
      cases hx : ext with
      | nil => simpa [hx, isPrefixOfNoCase] using h
      | cons b bs =>
        have hb : isMultispaceChar b = true := hext b (by simp [hx])
        have hne : a.toLower ≠ b.toLower := by
          rw [blank_toLower hb]
          exact blank_ne hb (hp a (by simp)) ∘ Eq.symm
        simp [hx, isPrefixOfNoCase, hne]
    | cons b bs =>
      simp only [List.cons_append, isPrefixOfNoCase]
      simp only [isPrefixOfNoCase] at h
      cases hab : (a.toLower == b.toLower) with
      | false => simp
      | true =>
        rw [hab] at h
        simp only [Bool.true_and] at h ⊢
        exact ih (fun c hc => hp c (by simp [hc])) h

lemma doubleQ_append {i : List Char}
    (hext : ∀ c ∈ ext, isMultispaceChar c = true) :
    doubleQ (i ++ ext) =
      match doubleQ i with
      | .ok (r, q) => .ok (r ++ ext, q)
      | .error (.err _) => .error (.err ⟨i ++ ext, .float⟩)
      | .error (.fail _) => .error (.fail ⟨i ++ ext, .float⟩) := by
  unfold doubleQ
  rw [signSplit_append i hext]
  simp only
  rw [takeWhile_append_head (blank_head_not_digit hext),
    dropWhile_append_head (blank_head_not_digit hext),
    fracSplit_append _ hext]
  simp only
  by_cases hc : ((signSplit i).2.takeWhile Char.isDigit).isEmpty ∧
      ((fracSplit ((signSplit i).2.dropWhile Char.isDigit)).1).isEmpty
  · simp only [hc.1, hc.2, Bool.and_self, if_true]
    by_cases hnan : isPrefixOfNoCase ['n', 'a', 'n'] i = true
    · have h3 : 3 ≤ i.length := isPrefixOfNoCase_length_le hnan
      have hnanE := isPrefixOfNoCase_append_true ext hnan
      simp [hnan, hnanE, List.drop_append_of_le_length h3]
    · have hnan' : isPrefixOfNoCase ['n', 'a', 'n'] i = false :=
        Bool.eq_false_iff.mpr hnan
      have hnanE : isPrefixOfNoCase ['n', 'a', 'n'] (i ++ ext) = false :=
        isPrefixOfNoCase_append_false (by decide) hext hnan'
      by_cases hinf8 : isPrefixOfNoCase ['i', 'n', 'f', 'i', 'n', 'i', 't', 'y'] i = true
      · have h8 : 8 ≤ i.length := isPrefixOfNoCase_length_le hinf8
        have hinf8E := isPrefixOfNoCase_append_true ext hinf8
        simp [hnan', hnanE, hinf8, hinf8E, List.drop_append_of_le_length h8]
      · have hinf8' : isPrefixOfNoCase ['i', 'n', 'f', 'i', 'n', 'i', 't', 'y'] i = false :=
          Bool.eq_false_iff.mpr hinf8
        have hinf8E : isPrefixOfNoCase ['i', 'n', 'f', 'i', 'n', 'i', 't', 'y'] (i ++ ext) = false :=
          isPrefixOfNoCase_append_false (by decide) hext hinf8'
        by_cases hinf3 : isPrefixOfNoCase ['i', 'n', 'f'] i = true
        · have h3 : 3 ≤ i.length := isPrefixOfNoCase_length_le hinf3
          have hinf3E := isPrefixOfNoCase_append_true ext hinf3
          simp [hnan', hnanE, hinf8', hinf8E, hinf3, hinf3E,
            List.drop_append_of_le_length h3]
        · have hinf3' : isPrefixOfNoCase ['i', 'n', 'f'] i = false :=
            Bool.eq_false_iff.mpr hinf3
          have hinf3E : isPrefixOfNoCase ['i', 'n', 'f'] (i ++ ext) = false :=
            isPrefixOfNoCase_append_false (by decide) hext hinf3'
          simp [hnan', hnanE, hinf8', hinf8E, hinf3', hinf3E]
  · rw [expSplit_append _ hext]
    rcases Decidable.not_and_iff_or_not.mp hc with hc | hc <;>
      simp only [Bool.not_eq_true] at hc <;>
      (simp only [hc, Bool.false_and, Bool.and_false, Bool.false_eq_true, if_false]
       cases hes : expSplit ((fracSplit ((signSplit i).2.dropWhile Char.isDigit)).2) with
       | none => simp
       | some ex => simp)

end StageExt

section Elims

variable {α β γ : Type}

lemma delimited_ok_elim {a : Parser α} {b : Parser β} {c : Parser γ}
    {i r : List Char} {x : β} (h : delimited a b c i = .ok (r, x)) :
    ∃ i1 y1 i2 y3, a i = .ok (i1, y1) ∧ b i1 = .ok (i2, x) ∧ c i2 = .ok (r, y3) := by
  unfold delimited at h
  cases ha : a i with
  | error e => simp only [ha] at h; exact absurd h (by simp)
  | ok z1 =>
    obtain ⟨i1, y1⟩ := z1
    simp only [ha] at h
    cases hb : b i1 with
    | error e => simp only [hb] at h; exact absurd h (by simp)
    | ok z2 =>
      obtain ⟨i2, y2⟩ := z2
      simp only [hb] at h
      cases hc : c i2 with
      | error e => simp only [hc] at h; exact absurd h (by simp)
      | ok z3 =>
        obtain ⟨i3, y3⟩ := z3
        simp only [hc] at h
        simp only [Except.ok.injEq, Prod.mk.injEq] at h
        obtain ⟨h1, h2⟩ := h
        subst h1; subst h2
        exact ⟨i1, y1, i2, y3, rfl, hb, hc⟩

lemma separatedPair_ok_elim {a : Parser α} {sep : Parser γ} {b : Parser β}
    {i r : List Char} {x : α} {y : β}
    (h : separatedPair a sep b i = .ok (r, (x, y))) :
    ∃ i1 i2 ysep, a i = .ok (i1, x) ∧ sep i1 = .ok (i2, ysep) ∧ b i2 = .ok (r, y) := by
  unfold separatedPair at h
  cases ha : a i with
  | error e => simp only [ha] at h; exact absurd h (by simp)
  | ok z1 =>
    obtain ⟨i1, x1⟩ := z1
    simp only [ha] at h
    cases hs : sep i1 with
    | error e => simp only [hs] at h; exact absurd h (by simp)
    | ok z2 =>
      obtain ⟨i2, y2⟩ := z2
      simp only [hs] at h
      cases hb : b i2 with
      | error e => simp only [hb] at h; exact absurd h (by simp)
      | ok z3 =>
        obtain ⟨i3, y3⟩ := z3
        simp only [hb] at h
        simp only [Except.ok.injEq, Prod.mk.injEq] at h
        obtain ⟨h1, h2, h3⟩ := h
        subst h1; subst h2; subst h3
        exact ⟨i1, i2, y2, rfl, hs, hb⟩

lemma alt2_ok_elim {p q : Parser α} {i : List Char} {x : List Char × α}
    (h : alt2 p q i = .ok x) : p i = .ok x ∨ q i = .ok x := by
  unfold alt2 at h
  cases hp : p i with
  | ok z => simp only [hp] at h; exact Or.inl h
  | error e =>
    cases e with
    | fail e0 => simp only [hp] at h; exact absurd h (by simp)
    | err e0 => simp only [hp] at h; exact Or.inr h

lemma pmap_ok_elim {f : α → β} {p : Parser α} {i r : List Char} {y : β}
    (h : pmap f p i = .ok (r, y)) : ∃ x, p i = .ok (r, x) ∧ y = f x := by
  unfold pmap at h
  cases hp : p i with
  | error e => simp only [hp] at h; exact absurd h (by simp)
  | ok z =>
    obtain ⟨r1, x⟩ := z
    simp only [hp] at h
    simp only [Except.ok.injEq, Prod.mk.injEq] at h
    obtain ⟨h1, h2⟩ := h
    subst h1; subst h2
    exact ⟨x, rfl, rfl⟩

end Elims

section MonoStack

/-- Statement pattern: a parser never returns a remainder longer than its
input.  Stated per parser below rather than as a definition. -/
lemma mono_multispace0 {i r : List Char} {x : Unit}
    (h : multispace0 i = .ok (r, x)) : r.length ≤ i.length := by
  unfold multispace0 at h
  simp only [Except.ok.injEq, Prod.mk.injEq] at h
  rw [← h.1]
  exact dropWhile_len_le i

lemma tag_ok_parts {t i r v : List Char} (h : tag t i = .ok (r, v)) :
    t.isPrefixOf i = true ∧ r = i.drop t.length ∧ v = t := by
  unfold tag at h
  split at h
  · next hp =>
    simp only [Except.ok.injEq, Prod.mk.injEq] at h
    exact ⟨hp, h.1.symm, h.2.symm⟩
  · exact absurd h (by simp)

lemma mono_tag {t i r v : List Char} (h : tag t i = .ok (r, v)) :
    r.length + t.length = i.length := by
  obtain ⟨hp, hr, -⟩ := tag_ok_parts h
  have := isPrefixOf_length_le hp
  rw [hr]
  simp
  omega

lemma mono_takeTill {p : Char → Bool} {i r v : List Char}
    (h : takeTill p i = .ok (r, v)) : r.length ≤ i.length := by
  unfold takeTill at h
  simp only [Except.ok.injEq, Prod.mk.injEq] at h
  rw [← h.1]
  exact dropWhile_len_le i

lemma strict_signSplit (i : List Char) : (signSplit i).2.length ≤ i.length := by
  unfold signSplit
  split
  · cases i <;> simp
  split
  · cases i <;> simp
  · simp

lemma strict_fracSplit (i2 : List Char) : (fracSplit i2).2.length ≤ i2.length := by
  unfold fracSplit
  split
  · calc (i2.tail.dropWhile Char.isDigit).length
        ≤ i2.tail.length := dropWhile_len_le _
      _ ≤ i2.length := by cases i2 <;> simp
  · simp

lemma strict_expSplit {i3 : List Char} {ex : Int × List Char}
    (h : expSplit i3 = some ex) : ex.2.length ≤ i3.length := by
  simp only [expSplit] at h
  split at h
  · split at h
    · exact absurd h (by simp)
    · simp only [Option.some.injEq] at h
      rw [← h]
      calc ((signSplit i3.tail).2.dropWhile Char.isDigit).length
          ≤ (signSplit i3.tail).2.length := dropWhile_len_le _
        _ ≤ i3.tail.length := strict_signSplit _
        _ ≤ i3.length := by cases i3 <;> simp
  · simp only [Option.some.injEq] at h
    rw [← h]

lemma dropWhile_lt_of_takeWhile_ne {p : Char → Bool} {l : List Char}
    (h : l.takeWhile p ≠ []) : (l.dropWhile p).length < l.length := by
  cases l with
  | nil => simp [List.takeWhile] at h
  | cons a t =>
    simp only [List.takeWhile, List.dropWhile] at h ⊢
    cases hp : p a
    · simp [hp] at h
    · calc (t.dropWhile p).length ≤ t.length := dropWhile_len_le t
        _ < (a :: t).length := by simp

lemma strict_doubleQ {i r : List Char} {q : ℚ}
    (h : doubleQ i = .ok (r, q)) : r.length < i.length := by
  simp only [doubleQ] at h
  split at h
  · split at h
    · next hnan =>
      have h3 : 3 ≤ i.length := by simpa using isPrefixOfNoCase_length_le hnan
      simp only [Except.ok.injEq, Prod.mk.injEq] at h
      rw [← h.1, List.length_drop]
      omega
    · split at h
      · next hinf =>
        have h8 : 8 ≤ i.length := by simpa using isPrefixOfNoCase_length_le hinf
        simp only [Except.ok.injEq, Prod.mk.injEq] at h
        rw [← h.1, List.length_drop]
        omega
      · split at h
        · next hinf3 =>
          have h3 : 3 ≤ i.length := by simpa using isPrefixOfNoCase_length_le hinf3
          simp only [Except.ok.injEq, Prod.mk.injEq] at h
          rw [← h.1, List.length_drop]
          omega
        · exact absurd h (by simp)
  · next hc =>
    simp only [Bool.and_eq_true, Bool.not_eq_true, List.isEmpty_eq_true] at hc
    rw [Decidable.not_and_iff_or_not] at hc
    have hbase : ((fracSplit ((signSplit i).2.dropWhile Char.isDigit)).2).length
        < i.length := by
      rcases hc with hc | hc
      · have h1 : ((signSplit i).2.dropWhile Char.isDigit).length
            < (signSplit i).2.length := by
          apply dropWhile_lt_of_takeWhile_ne
          simpa [List.isEmpty_eq_true] using hc
        calc ((fracSplit ((signSplit i).2.dropWhile Char.isDigit)).2).length
            ≤ ((signSplit i).2.dropWhile Char.isDigit).length := strict_fracSplit _
          _ < (signSplit i).2.length := h1
          _ ≤ i.length := strict_signSplit i
      · set i2 := (signSplit i).2.dropWhile Char.isDigit with hi2
        have hdot : i2.head? = some '.' := by
          by_contra hd
          rw [fracSplit, if_neg hd] at hc
          exact hc rfl
        have hne : i2 ≠ [] := by
          intro hnil
          rw [hnil] at hdot
          simp at hdot
        have h2 : (fracSplit i2).2.length < i2.length := by
          rw [fracSplit, if_pos hdot]
          calc (i2.tail.dropWhile Char.isDigit).length
              ≤ i2.tail.length := dropWhile_len_le _
            _ < i2.length := by
                have hp : 0 < i2.length := List.length_pos.mpr hne
                rw [List.length_tail]
                omega
        calc (fracSplit i2).2.length < i2.length := h2
          _ ≤ (signSplit i).2.length := dropWhile_len_le _
          _ ≤ i.length := strict_signSplit i
    cases hes : expSplit ((fracSplit ((signSplit i).2.dropWhile Char.isDigit)).2) with
    | none =>
      simp only [hes] at h
      exact absurd h (by simp)
    | some ex =>
      simp only [hes] at h
      simp only [Except.ok.injEq, Prod.mk.injEq] at h
      rw [← h.1]
      calc ex.2.length
          ≤ ((fracSplit ((signSplit i).2.dropWhile Char.isDigit)).2).length :=
            strict_expSplit hes
        _ < i.length := hbase

end MonoStack

section MonoComposite

variable {α β γ : Type}

lemma strict_parse_string {i r v : List Char}
    (h : parse_string i = .ok (r, v)) : r.length < i.length := by
  unfold parse_string context at h
  obtain ⟨i1, y1, i2, y3, h1, h2, h3⟩ := delimited_ok_elim h
  have m1 := mono_tag h1
  have m2 := mono_takeTill h2
  have m3 := mono_tag h3
  simp at m1 m3
  omega

lemma strict_parse_bool {i r : List Char} {b : Bool}
    (h : parse_bool i = .ok (r, b)) : r.length < i.length := by
  unfold parse_bool pvalue at h
  rcases alt2_ok_elim h with h | h <;>
    · obtain ⟨x, hp, -⟩ := pmap_ok_elim h
      have := mono_tag hp
      simp at this
      omega

lemma strict_parse_null {i r : List Char} {v : JsonValue}
    (h : parse_null i = .ok (r, v)) : r.length < i.length := by
  unfold parse_null pvalue at h
  obtain ⟨x, hp, -⟩ := pmap_ok_elim h
  have := mono_tag hp
  simp at this
  omega

lemma mono_pmap {f : α → β} {p : Parser α}
    (hp : ∀ j r x, p j = .ok (r, x) → r.length ≤ j.length) :
    ∀ j r y, pmap f p j = .ok (r, y) → r.length ≤ j.length := by
  intro j r y h
  obtain ⟨x, hx, -⟩ := pmap_ok_elim h
  exact hp j r x hx

lemma mono_delimited {a : Parser α} {b : Parser β} {c : Parser γ}
    (ha : ∀ j r x, a j = .ok (r, x) → r.length ≤ j.length)
    (hb : ∀ j r x, b j = .ok (r, x) → r.length ≤ j.length)
    (hc : ∀ j r x, c j = .ok (r, x) → r.length ≤ j.length) :
    ∀ j r x, delimited a b c j = .ok (r, x) → r.length ≤ j.length := by
  intro j r x h
  obtain ⟨i1, y1, i2, y3, h1, h2, h3⟩ := delimited_ok_elim h
  have := ha j i1 y1 h1
  have := hb i1 i2 x h2
  have := hc i2 r y3 h3
  omega

lemma mono_separatedPair {a : Parser α} {sep : Parser γ} {b : Parser β}
    (ha : ∀ j r x, a j = .ok (r, x) → r.length ≤ j.length)
    (hs : ∀ j r x, sep j = .ok (r, x) → r.length ≤ j.length)
    (hb : ∀ j r x, b j = .ok (r, x) → r.length ≤ j.length) :
    ∀ j r xy, separatedPair a sep b j = .ok (r, xy) → r.length ≤ j.length := by
  intro j r xy h
  obtain ⟨x, y⟩ := xy
  obtain ⟨i1, i2, ysep, h1, h2, h3⟩ := separatedPair_ok_elim h
  have := ha j i1 x h1
  have := hs i1 i2 ysep h2
  have := hb i2 r y h3
  omega

lemma mono_ms0 : ∀ j r (x : Unit), multispace0 j = .ok (r, x) → r.length ≤ j.length := by
  intro j r x h
  exact mono_multispace0 h

lemma mono_tag' (t : List Char) :
    ∀ j r x, tag t j = .ok (r, x) → r.length ≤ j.length := by
  intro j r x h
  have := mono_tag h
  omega

lemma loop_mono {β : Type} {elem : Parser β}
    (helem : ∀ j r x, elem j = .ok (r, x) → r.length ≤ j.length) :
    ∀ fuel i acc r l,
      sepList0Loop (tag [',']) elem fuel i acc = .ok (r, l) →
        r.length ≤ i.length := by
  intro fuel
  induction fuel with
  | zero => intro i acc r l h; exact absurd h (by simp [sepList0Loop])
  | succ f ih =>
    intro i acc r l h
    simp only [sepList0Loop] at h
    cases hsep : tag [','] i with
    | error e =>
      cases e with
      | fail e0 =>
        simp only [hsep] at h
        exact absurd h (by simp)
      | err e0 =>
        simp only [hsep] at h
        simp only [Except.ok.injEq, Prod.mk.injEq] at h
        rw [← h.1]
    | ok z =>
      obtain ⟨i1, y⟩ := z
      simp only [hsep] at h
      split at h
      · exact absurd h (by simp)
      · cases helemr : elem i1 with
        | error e =>
          cases e with
          | fail e0 =>
            simp only [helemr] at h
            exact absurd h (by simp)
          | err e0 =>
            simp only [helemr] at h
            simp only [Except.ok.injEq, Prod.mk.injEq] at h
            rw [← h.1]
        | ok z2 =>
          obtain ⟨i2, x⟩ := z2
          simp only [helemr] at h
          have h1 := ih i2 (acc ++ [x]) r l h
          have h2 := helem i1 i2 x helemr
          have h3 := mono_tag hsep
          simp at h3
          omega

lemma sepList0_mono {β : Type} {elem : Parser β}
    (helem : ∀ j r x, elem j = .ok (r, x) → r.length ≤ j.length) (fuel : Nat) :
    ∀ i r l, sepList0 (tag [',']) elem fuel i = .ok (r, l) →
      r.length ≤ i.length := by
  intro i r l h
  unfold sepList0 at h
  cases he : elem i with
  | error e =>
    cases e with
    | fail e0 =>
      simp only [he] at h
      exact absurd h (by simp)
    | err e0 =>
      simp only [he] at h
      simp only [Except.ok.injEq, Prod.mk.injEq] at h
      rw [← h.1]
  | ok z =>
    obtain ⟨i1, x⟩ := z
    simp only [he] at h
    have h1 := loop_mono helem fuel i1 [x] r l h
    have h2 := helem i i1 x he
    omega

lemma strict_arrayWith {p : Parser JsonValue} {fl : Nat}
    (hp : ∀ j r x, p j = .ok (r, x) → r.length ≤ j.length) :
    ∀ i r l, parse_arrayWith p fl i = .ok (r, l) → r.length < i.length := by
  intro i r l h
  unfold parse_arrayWith context at h
  obtain ⟨i1, y1, i2, y3, h1, h2, h3⟩ := delimited_ok_elim h
  have m1 := mono_tag h1
  have m2 := sepList0_mono (mono_delimited mono_ms0 hp mono_ms0) fl i1 i2 l h2
  have m3 := mono_tag h3
  simp at m1 m3
  omega

lemma strict_objectWith {p : Parser JsonValue} {fl : Nat}
    (hp : ∀ j r x, p j = .ok (r, x) → r.length ≤ j.length) :
    ∀ i r m, parse_objectWith p fl i = .ok (r, m) → r.length < i.length := by
  intro i r m h
  unfold parse_objectWith context at h
  obtain ⟨i1, y1, i2, y3, h1, h2, h3⟩ := delimited_ok_elim h
  have m1 := mono_tag h1
  have hpair := mono_separatedPair
    (mono_delimited mono_ms0 (fun j r x hx => le_of_lt (strict_parse_string hx)) mono_ms0)
    (mono_tag' [':'])
    (mono_delimited mono_ms0 hp mono_ms0)
  have m2 := mono_pmap (sepList0_mono hpair fl) i1 i2 m h2
  have m3 := mono_tag h3
  simp at m1 m3
  omega

lemma strict_parseF : ∀ (f : Nat) (i r : List Char) (v : JsonValue),
    parseF f i = .ok (r, v) → r.length < i.length := by
  intro f
  induction f with
  | zero => intro i r v h; exact absurd h (by simp [parseF])
  | succ f ih =>
    intro i r v h
    simp only [parseF, context] at h
    obtain ⟨core, y1, rest, y3, h1, h2, h3⟩ := delimited_ok_elim h
    have hcore := mono_multispace0 h1
    have hr := mono_multispace0 h3
    have hmono : ∀ j r x, parseF f j = .ok (r, x) → r.length ≤ j.length :=
      fun j r x hx => le_of_lt (ih j r x hx)
    have hrest : rest.length < core.length := by
      rcases alt2_ok_elim h2 with hb | h2
      · obtain ⟨x, hx, -⟩ := pmap_ok_elim hb
        exact strict_objectWith hmono core rest x hx
      rcases alt2_ok_elim h2 with hb | h2
      · obtain ⟨x, hx, -⟩ := pmap_ok_elim hb
        exact strict_arrayWith hmono core rest x hx
      rcases alt2_ok_elim h2 with hb | h2
      · obtain ⟨x, hx, -⟩ := pmap_ok_elim hb
        exact strict_doubleQ hx
      rcases alt2_ok_elim h2 with hb | h2
      · obtain ⟨x, hx, -⟩ := pmap_ok_elim hb
        exact strict_parse_string hx
      rcases alt2_ok_elim h2 with hb | h2
      · obtain ⟨x, hx, -⟩ := pmap_ok_elim hb
        exact strict_parse_bool hx
      · exact strict_parse_null h2
    omega

end MonoComposite

section FuelCongr

lemma loop_congr {β : Type} {elem elem' : Parser β} {n : Nat}
    (helemM : ∀ j r x, elem j = .ok (r, x) → r.length ≤ j.length)
    (hagree : ∀ j, j.length ≤ n → elem j = elem' j) :
    ∀ fuel fuel' i acc, i.length ≤ n → i.length < fuel → i.length < fuel' →
      sepList0Loop (tag [',']) elem fuel i acc =
        sepList0Loop (tag [',']) elem' fuel' i acc := by
  intro fuel
  induction fuel with
  | zero => intro fuel' i acc hn h0 h0'; omega
  | succ f ih =>
    intro fuel' i acc hn hf hf'
    cases fuel' with
    | zero => omega
    | succ g =>
      simp only [sepList0Loop]
      cases hsep : tag [','] i with
      | error e => cases e <;> simp [hsep]
      | ok z =>
        obtain ⟨i1, y⟩ := z
        simp only [hsep]
        have hlen := mono_tag hsep
        simp at hlen
        have hne : ¬(i1.length = i.length) := by omega
        rw [if_neg hne, if_neg hne]
        have hi1 : i1.length ≤ n := by omega
        rw [← hagree i1 hi1]
        cases he : elem i1 with
        | error e => cases e <;> simp [he]
        | ok z2 =>
          obtain ⟨i2, x⟩ := z2
          simp only [he]
          have hi2 : i2.length ≤ i1.length := helemM i1 i2 x he
          exact ih g i2 (acc ++ [x]) (by omega) (by omega) (by omega)

lemma sepList0_congr {β : Type} {elem elem' : Parser β} {n : Nat}
    (helemM : ∀ j r x, elem j = .ok (r, x) → r.length ≤ j.length)
    (hagree : ∀ j, j.length ≤ n → elem j = elem' j)
    (fuel fuel' : Nat) (i : List Char)
    (hn : i.length ≤ n) (hf : i.length < fuel) (hf' : i.length < fuel') :
    sepList0 (tag [',']) elem fuel i = sepList0 (tag [',']) elem' fuel' i := by
  unfold sepList0
  rw [← hagree i hn]
  cases he : elem i with
  | error e => cases e <;> rfl
  | ok z =>
    obtain ⟨i1, x⟩ := z
    have hi1 : i1.length ≤ i.length := helemM i i1 x he
    exact loop_congr helemM hagree fuel fuel' i1 [x] (by omega) (by omega) (by omega)

end FuelCongr

section WithCongr

variable {α β γ : Type}

lemma delimited_congr_mid {a : Parser α} {b b' : Parser β} {c : Parser γ}
    {i : List Char} (h : ∀ j y, a i = .ok (j, y) → b j = b' j) :
    delimited a b c i = delimited a b' c i := by
  unfold delimited
  cases ha : a i with
  | error e => rfl
  | ok z =>
    obtain ⟨j, y⟩ := z
    simp only
    rw [h j y ha]

lemma pmap_congr_pt {f : α → β} {p p' : Parser α} {i : List Char}
    (h : p i = p' i) : pmap f p i = pmap f p' i := by
  unfold pmap
  rw [h]

lemma alt2_congr_pt {p p' q q' : Parser α} {i : List Char}
    (hp : p i = p' i) (hq : q i = q' i) : alt2 p q i = alt2 p' q' i := by
  unfold alt2
  rw [hp, hq]

lemma elem_agree {p p' : Parser JsonValue} {n : Nat}
    (hagree : ∀ j, j.length ≤ n → p j = p' j) :
    ∀ j, j.length ≤ n →
      delimited multispace0 p multispace0 j =
        delimited multispace0 p' multispace0 j := by
  intro j hj
  apply delimited_congr_mid
  intro j1 y hms
  unfold multispace0 at hms
  simp only [Except.ok.injEq, Prod.mk.injEq] at hms
  rw [hagree j1 (by rw [← hms.1]; exact le_trans (dropWhile_len_le j) hj)]

lemma arrayWith_congr {p p' : Parser JsonValue} {fl fl' : Nat} {i : List Char}
    (hpM : ∀ j r x, p j = .ok (r, x) → r.length ≤ j.length)
    (hagree : ∀ j, j.length < i.length → p j = p' j)
    (hfl : i.length ≤ fl) (hfl' : i.length ≤ fl') :
    parse_arrayWith p fl i = parse_arrayWith p' fl' i := by
  unfold parse_arrayWith context
  apply delimited_congr_mid
  intro i1 y htag
  have hlen := mono_tag htag
  simp at hlen
  have helemM : ∀ j r x, delimited multispace0 p multispace0 j = .ok (r, x) →
      r.length ≤ j.length := mono_delimited mono_ms0 hpM mono_ms0
  have hagree1 : ∀ j, j.length ≤ i1.length → p j = p' j := fun j hj =>
    hagree j (by omega)
  exact sepList0_congr helemM (elem_agree hagree1) fl fl' i1 (le_refl _)
    (by omega) (by omega)

lemma pair_agree {p p' : Parser JsonValue} {n : Nat}
    (hpM : ∀ j r x, p j = .ok (r, x) → r.length ≤ j.length)
    (hagree : ∀ j, j.length ≤ n → p j = p' j) :
    ∀ j, j.length ≤ n →
      separatedPair (delimited multispace0 parse_string multispace0) (tag [':'])
        (delimited multispace0 p multispace0) j =
      separatedPair (delimited multispace0 parse_string multispace0) (tag [':'])
        (delimited multispace0 p' multispace0) j := by
  intro j hj
  unfold separatedPair
  cases hk : delimited multispace0 parse_string multispace0 j with
  | error e => rfl
  | ok z =>
    obtain ⟨i1, k⟩ := z
    simp only
    have h1 : i1.length ≤ j.length :=
      mono_delimited mono_ms0
        (fun j' r x hx => le_of_lt (strict_parse_string hx)) mono_ms0 j i1 k hk
    cases hc : tag [':'] i1 with
    | error e => rfl
    | ok z2 =>
      obtain ⟨i2, y2⟩ := z2
      simp only
      have h2 := mono_tag hc
      simp at h2
      rw [elem_agree hagree i2 (by omega)]

lemma objectWith_congr {p p' : Parser JsonValue} {fl fl' : Nat} {i : List Char}
    (hpM : ∀ j r x, p j = .ok (r, x) → r.length ≤ j.length)
    (hagree : ∀ j, j.length < i.length → p j = p' j)
    (hfl : i.length ≤ fl) (hfl' : i.length ≤ fl') :
    parse_objectWith p fl i = parse_objectWith p' fl' i := by
  unfold parse_objectWith context
  apply delimited_congr_mid
  intro i1 y htag
  have hlen := mono_tag htag
  simp at hlen
  apply pmap_congr_pt
  have hpairM : ∀ j r x,
      separatedPair (delimited multispace0 parse_string multispace0) (tag [':'])
        (delimited multispace0 p multispace0) j = .ok (r, x) →
        r.length ≤ j.length :=
    mono_separatedPair
      (mono_delimited mono_ms0
        (fun j' r x hx => le_of_lt (strict_parse_string hx)) mono_ms0)
      (mono_tag' [':'])
      (mono_delimited mono_ms0 hpM mono_ms0)
  have hagree1 : ∀ j, j.length ≤ i1.length → p j = p' j := fun j hj =>
    hagree j (by omega)
  exact sepList0_congr hpairM (pair_agree hpM hagree1) fl fl' i1 (le_refl _)
    (by omega) (by omega)

lemma parseF_fuel_congr : ∀ (f g : Nat) (i : List Char),
    i.length < f → i.length < g → parseF f i = parseF g i := by
  intro f
  induction f with
  | zero => intro g i h0; omega
  | succ f ih =>
    intro g i hf hg
    cases g with
    | zero => omega
    | succ g =>
      simp only [parseF, context]
      apply delimited_congr_mid
      intro core y hms
      have hcore : core.length ≤ i.length := mono_multispace0 hms
      have hMf : ∀ j r x, parseF f j = .ok (r, x) → r.length ≤ j.length :=
        fun j r x hx => le_of_lt (strict_parseF f j r x hx)
      have hagree : ∀ j, j.length < core.length → parseF f j = parseF g j :=
        fun j hj => ih g j (by omega) (by omega)
      exact alt2_congr_pt
        (pmap_congr_pt (objectWith_congr hMf hagree (by omega) (by omega)))
        (alt2_congr_pt
          (pmap_congr_pt (arrayWith_congr hMf hagree (by omega) (by omega)))
          rfl)

end WithCongr

/-- C9: the mutually recursive value/array/object rules terminate on every
finite input.  In the fuel embedding this is exactly: (1) any fuel above
the input length yields the same result as the canonical `length + 1`
(`parse`), so the recursion is well defined and total — each recursive call
operates on a strictly shorter slice, which is why `length + 1` levels
suffice; and (2) every successful parse consumes at least one character
(the remainder is strictly shorter than the input). -/
theorem parse_total_and_consuming :
    (∀ (f : Nat) (i : List Char), i.length < f → parseF f i = parse i) ∧
    (∀ (f : Nat) (i r : List Char) (v : JsonValue),
        parseF f i = .ok (r, v) → r.length < i.length) :=
  ⟨fun f i hf => parseF_fuel_congr f (i.length + 1) i hf (by omega),
   fun f i r v h => strict_parseF f i r v h⟩

/-- Witness for C9 at fuel 10 on the input `1`. -/
theorem parse_total_and_consuming_witness :
    parseF 10 "1".data = parse "1".data ∧
    ([] : List Char).length < "1".data.length :=
  ⟨parse_total_and_consuming.1 10 "1".data (by decide),
   parse_total_and_consuming.2 2 "1".data [] (.Number 1) (by rfl)⟩

section MoreElims

variable {α β γ : Type}

lemma takeWhile_append_ne {p : Char → Bool} {l ext : List Char}
    (h : l.dropWhile p ≠ []) : (l ++ ext).takeWhile p = l.takeWhile p := by
  induction l with
  | nil => simp [List.dropWhile] at h
  | cons a t ih =>
    simp only [List.cons_append, List.takeWhile]
    cases hp : p a
    · simp
    · simp only [List.dropWhile, hp] at h
      simp [ih h]

lemma delimited_ok_build {a : Parser α} {b : Parser β} {c : Parser γ}
    {i i1 i2 r : List Char} {y1 : α} {x : β} {y3 : γ}
    (h1 : a i = .ok (i1, y1)) (h2 : b i1 = .ok (i2, x))
    (h3 : c i2 = .ok (r, y3)) : delimited a b c i = .ok (r, x) := by
  unfold delimited
  simp [h1, h2, h3]

lemma delimited_err_build1 {a : Parser α} {b : Parser β} {c : Parser γ}
    {i : List Char} {e : NomExc} (h1 : a i = .error e) :
    delimited a b c i = .error e := by
  unfold delimited
  simp [h1]

lemma delimited_err_build2 {a : Parser α} {b : Parser β} {c : Parser γ}
    {i i1 : List Char} {y1 : α} {e : NomExc}
    (h1 : a i = .ok (i1, y1)) (h2 : b i1 = .error e) :
    delimited a b c i = .error e := by
  unfold delimited
  simp [h1, h2]

lemma delimited_err_build3 {a : Parser α} {b : Parser β} {c : Parser γ}
    {i i1 i2 : List Char} {y1 : α} {x : β} {e : NomExc}
    (h1 : a i = .ok (i1, y1)) (h2 : b i1 = .ok (i2, x))
    (h3 : c i2 = .error e) : delimited a b c i = .error e := by
  unfold delimited
  simp [h1, h2, h3]

lemma delimited_err_elim {a : Parser α} {b : Parser β} {c : Parser γ}
    {i : List Char} {e : NomExc} (h : delimited a b c i = .error e) :
    a i = .error e ∨
    (∃ i1 y1, a i = .ok (i1, y1) ∧ b i1 = .error e) ∨
    (∃ i1 y1 i2 x, a i = .ok (i1, y1) ∧ b i1 = .ok (i2, x) ∧ c i2 = .error e) := by
  unfold delimited at h
  cases ha : a i with
  | error e1 =>
    simp only [ha] at h
    simp only [Except.error.injEq] at h
    subst h
    exact Or.inl rfl
  | ok z1 =>
    obtain ⟨i1, y1⟩ := z1
    simp only [ha] at h
    cases hb : b i1 with
    | error e2 =>
      simp only [hb] at h
      simp only [Except.error.injEq] at h
      subst h
      exact Or.inr (Or.inl ⟨i1, y1, rfl, hb⟩)
    | ok z2 =>
      obtain ⟨i2, x⟩ := z2
      simp only [hb] at h
      cases hc : c i2 with
      | error e3 =>
        simp only [hc] at h
        simp only [Except.error.injEq] at h
        subst h
        exact Or.inr (Or.inr ⟨i1, y1, i2, x, rfl, hb, hc⟩)
      | ok z3 =>
        simp only [hc] at h
        obtain ⟨i3, y3⟩ := z3
        exact absurd h (by simp)

lemma separatedPair_ok_build {a : Parser α} {sep : Parser γ} {b : Parser β}
    {i i1 i2 r : List Char} {x : α} {ysep : γ} {y : β}
    (h1 : a i = .ok (i1, x)) (h2 : sep i1 = .ok (i2, ysep))
    (h3 : b i2 = .ok (r, y)) : separatedPair a sep b i = .ok (r, (x, y)) := by
  unfold separatedPair
  simp [h1, h2, h3]

lemma separatedPair_err_elim {a : Parser α} {sep : Parser γ} {b : Parser β}
    {i : List Char} {e : NomExc} (h : separatedPair a sep b i = .error e) :
    a i = .error e ∨
    (∃ i1 x, a i = .ok (i1, x) ∧ sep i1 = .error e) ∨
    (∃ i1 x i2 ysep, a i = .ok (i1, x) ∧ sep i1 = .ok (i2, ysep) ∧
      b i2 = .error e) := by
  unfold separatedPair at h
  cases ha : a i with
  | error e1 =>
    simp only [ha] at h
    simp only [Except.error.injEq] at h
    subst h
    exact Or.inl rfl
  | ok z1 =>
    obtain ⟨i1, x⟩ := z1
    simp only [ha] at h
    cases hs : sep i1 with
    | error e2 =>
      simp only [hs] at h
      simp only [Except.error.injEq] at h
      subst h
      exact Or.inr (Or.inl ⟨i1, x, rfl, hs⟩)
    | ok z2 =>
      obtain ⟨i2, ysep⟩ := z2
      simp only [hs] at h
      cases hb : b i2 with
      | error e3 =>
        simp only [hb] at h
        simp only [Except.error.injEq] at h
        subst h
        exact Or.inr (Or.inr ⟨i1, x, i2, ysep, rfl, hs, hb⟩)
      | ok z3 =>
        simp only [hb] at h
        obtain ⟨i3, y3⟩ := z3
        exact absurd h (by simp)

lemma separatedPair_err_build1 {a : Parser α} {sep : Parser γ} {b : Parser β}
    {i : List Char} {e : NomExc} (h1 : a i = .error e) :
    separatedPair a sep b i = .error e := by
  unfold separatedPair
  simp [h1]

lemma separatedPair_err_build2 {a : Parser α} {sep : Parser γ} {b : Parser β}
    {i i1 : List Char} {x : α} {e : NomExc}
    (h1 : a i = .ok (i1, x)) (h2 : sep i1 = .error e) :
    separatedPair a sep b i = .error e := by
  unfold separatedPair
  simp [h1, h2]

lemma separatedPair_err_build3 {a : Parser α} {sep : Parser γ} {b : Parser β}
    {i i1 i2 : List Char} {x : α} {ysep : γ} {e : NomExc}
    (h1 : a i = .ok (i1, x)) (h2 : sep i1 = .ok (i2, ysep))
    (h3 : b i2 = .error e) : separatedPair a sep b i = .error e := by
  unfold separatedPair
  simp [h1, h2, h3]

lemma alt2_ok_elim' {p q : Parser α} {i : List Char} {x : List Char × α}
    (h : alt2 p q i = .ok x) :
    p i = .ok x ∨ (∃ e, p i = .error (.err e) ∧ q i = .ok x) := by
  unfold alt2 at h
  cases hp : p i with
  | ok z => rw [hp] at h; exact Or.inl h
  | error e =>
    cases e with
    | fail e0 => rw [hp] at h; exact absurd h (by simp)
    | err e0 => rw [hp] at h; exact Or.inr ⟨e0, rfl, h⟩

lemma alt2_err_elim {p q : Parser α} {i : List Char} {e : NomExc}
    (h : alt2 p q i = .error e) :
    (e.isFatal = true ∧ p i = .error e) ∨
      (∃ e1, p i = .error (.err e1) ∧ q i = .error e) := by
  unfold alt2 at h
  cases hp : p i with
  | ok z => rw [hp] at h; exact absurd h (by simp)
  | error e1 =>
    cases e1 with
    | fail e0 =>
      rw [hp] at h
      simp only [Except.error.injEq] at h
      exact Or.inl ⟨by rw [← h]; rfl, by rw [← h]⟩
    | err e0 => rw [hp] at h; exact Or.inr ⟨e0, rfl, h⟩

lemma alt2_build_ok1 {p q : Parser α} {i : List Char} {x : List Char × α}
    (h : p i = .ok x) : alt2 p q i = .ok x := by
  unfold alt2
  simp [h]

lemma alt2_build_ok2 {p q : Parser α} {i : List Char} {e : NomErr}
    {x : List Char × α} (h1 : p i = .error (.err e)) (h2 : q i = .ok x) :
    alt2 p q i = .ok x := by
  unfold alt2
  simp [h1, h2]

lemma alt2_build_err {p q : Parser α} {i : List Char} {e : NomErr} {e' : NomExc}
    (h1 : p i = .error (.err e)) (h2 : q i = .error e') :
    alt2 p q i = .error e' := by
  unfold alt2
  simp [h1, h2]

lemma alt2_build_fatal {p q : Parser α} {i : List Char} {e : NomErr}
    (h1 : p i = .error (.fail e)) : alt2 p q i = .error (.fail e) := by
  unfold alt2
  simp [h1]

lemma tag_err_shape {t i : List Char} {x : NomExc}
    (h : tag t i = .error x) : x = .err ⟨i, .tag⟩ := by
  unfold tag at h
  split at h
  · exact absurd h (by simp)
  · simp only [Except.error.injEq] at h
    exact h.symm

lemma pmap_err_elim {f : α → β} {p : Parser α} {i : List Char} {e : NomExc}
    (h : pmap f p i = .error e) : p i = .error e := by
  unfold pmap at h
  cases hp : p i with
  | error e1 =>
    simp only [hp] at h
    simp only [Except.error.injEq] at h
    subst h
    rfl
  | ok z =>
    obtain ⟨r, x⟩ := z
    simp only [hp] at h
    exact absurd h (by simp)

lemma pmap_ok_build {f : α → β} {p : Parser α} {i r : List Char} {x : α}
    (h : p i = .ok (r, x)) : pmap f p i = .ok (r, f x) := by
  unfold pmap
  simp [h]

lemma pmap_err_build {f : α → β} {p : Parser α} {i : List Char} {e : NomExc}
    (h : p i = .error e) : pmap f p i = .error e := by
  unfold pmap
  simp [h]

end MoreElims

section AtomAppend

variable {ext : List Char}

lemma blank_q_true (hext : ∀ c ∈ ext, isMultispaceChar c = true) :
    ∀ c ∈ ext, (!(c = '"' : Bool)) = true := by
  intro c hc
  have hq : isMultispaceChar '"' = false := by decide
  have := blank_ne (hext c hc) hq
  simp [this]

lemma parse_string_ok_append (hext : ∀ c ∈ ext, isMultispaceChar c = true)
    {i r v : List Char} (h : parse_string i = .ok (r, v)) :
    parse_string (i ++ ext) = .ok (r ++ ext, v) := by
  unfold parse_string context at h ⊢
  obtain ⟨i1, y1, i2, y3, h1, h2, h3⟩ := delimited_ok_elim h
  unfold takeTill at h2
  simp only [Except.ok.injEq, Prod.mk.injEq] at h2
  have hne : i1.dropWhile (fun c => !(c = '"' : Bool)) ≠ [] := by
    intro h0
    have hi2 : i2 = [] := by rw [← h2.1, h0]
    rw [hi2] at h3
    exact absurd (tag_ok_parts h3).1 (by simp [List.isPrefixOf])
  apply delimited_ok_build (tag_ok_append h1)
  · unfold takeTill
    rw [dropWhile_append_ne hne, takeWhile_append_ne hne, h2.1, h2.2]
  · exact tag_ok_append h3

lemma parse_string_err_shape {i : List Char} {e : NomExc}
    (h : parse_string i = .error e) : e.isFatal = false := by
  unfold parse_string context at h
  rcases delimited_err_elim h with h1 | ⟨i1, y1, h1, h2⟩ | ⟨i1, y1, i2, x, h1, h2, h3⟩
  · rw [tag_err_shape h1]; rfl
  · exact absurd h2 (by simp [takeTill])
  · rw [tag_err_shape h3]; rfl

lemma parse_bool_err_shape {i : List Char} {e : NomExc}
    (h : parse_bool i = .error e) : e.isFatal = false := by
  unfold parse_bool pvalue at h
  rcases alt2_err_elim h with ⟨hfat, h1⟩ | ⟨e1, h1, h2⟩
  · rw [tag_err_shape (pmap_err_elim h1)] at hfat
    exact absurd hfat (by simp [NomExc.isFatal])
  · rw [tag_err_shape (pmap_err_elim h2)]; rfl

lemma parse_null_err_shape {i : List Char} {e : NomExc}
    (h : parse_null i = .error e) : e.isFatal = false := by
  unfold parse_null pvalue at h
  rw [tag_err_shape (pmap_err_elim h)]; rfl

lemma parse_string_err_append (hext : ∀ c ∈ ext, isMultispaceChar c = true)
    {i : List Char} {e : NomExc} (h : parse_string i = .error e) :
    ∃ e', parse_string (i ++ ext) = .error e' ∧ e'.isFatal = e.isFatal := by
  have hsh := parse_string_err_shape h
  rw [hsh]
  unfold parse_string context at h ⊢
  rcases delimited_err_elim h with h1 | ⟨i1, y1, h1, h2⟩ | ⟨i1, y1, i2, x, h1, h2, h3⟩
  · exact ⟨_, delimited_err_build1 (tag_err_append h1 (by decide) hext), rfl⟩
  · exact absurd h2 (by simp [takeTill])
  · unfold takeTill at h2
    simp only [Except.ok.injEq, Prod.mk.injEq] at h2
    by_cases hne0 : i1.dropWhile (fun c => !(c = '"' : Bool)) = []
    · have hb : takeTill (fun c => decide (c = '"')) (i1 ++ ext) =
          .ok ([], (i1 ++ ext).takeWhile (fun c => !(c = '"' : Bool))) := by
        unfold takeTill
        rw [dropWhile_append_nil hne0 (blank_q_true hext)]
      exact ⟨.err ⟨[], .tag⟩, delimited_err_build3 (tag_ok_append h1) hb rfl, rfl⟩
    · have hb : takeTill (fun c => decide (c = '"')) (i1 ++ ext) =
          .ok (i2 ++ ext, x) := by
        unfold takeTill
        rw [dropWhile_append_ne hne0, takeWhile_append_ne hne0, h2.1, h2.2]
      exact ⟨_, delimited_err_build3 (tag_ok_append h1) hb
        (tag_err_append h3 (by decide) hext), rfl⟩

lemma parse_bool_ok_append (hext : ∀ c ∈ ext, isMultispaceChar c = true)
    {i r : List Char} {b : Bool} (h : parse_bool i = .ok (r, b)) :
    parse_bool (i ++ ext) = .ok (r ++ ext, b) := by
  unfold parse_bool pvalue at h ⊢
  rcases alt2_ok_elim' h with h1 | ⟨e, h1, h2⟩
  · obtain ⟨x, hx, hv⟩ := pmap_ok_elim h1
    subst hv
    exact alt2_build_ok1 (pmap_ok_build (tag_ok_append hx))
  · obtain ⟨x, hx, hv⟩ := pmap_ok_elim h2
    subst hv
    exact alt2_build_ok2
      (pmap_err_build (tag_err_append (pmap_err_elim h1) (by decide) hext))
      (pmap_ok_build (tag_ok_append hx))

lemma parse_bool_err_append (hext : ∀ c ∈ ext, isMultispaceChar c = true)
    {i : List Char} {e : NomExc} (h : parse_bool i = .error e) :
    ∃ e', parse_bool (i ++ ext) = .error e' ∧ e'.isFatal = e.isFatal := by
  have hsh := parse_bool_err_shape h
  rw [hsh]
  unfold parse_bool pvalue at h ⊢
  rcases alt2_err_elim h with ⟨hfat, h1⟩ | ⟨e1, h1, h2⟩
  · rw [tag_err_shape (pmap_err_elim h1)] at hfat
    exact absurd hfat (by simp [NomExc.isFatal])
  · exact ⟨_, alt2_build_err
      (pmap_err_build (tag_err_append (pmap_err_elim h1) (by decide) hext))
      (pmap_err_build (tag_err_append (pmap_err_elim h2) (by decide) hext)), rfl⟩

lemma parse_null_ok_append (hext : ∀ c ∈ ext, isMultispaceChar c = true)
    {i r : List Char} {v : JsonValue} (h : parse_null i = .ok (r, v)) :
    parse_null (i ++ ext) = .ok (r ++ ext, v) := by
  unfold parse_null pvalue at h ⊢
  obtain ⟨x, hx, hv⟩ := pmap_ok_elim h
  subst hv
  exact pmap_ok_build (tag_ok_append hx)

lemma parse_null_err_append (hext : ∀ c ∈ ext, isMultispaceChar c = true)
    {i : List Char} {e : NomExc} (h : parse_null i = .error e) :
    ∃ e', parse_null (i ++ ext) = .error e' ∧ e'.isFatal = e.isFatal := by
  have hsh := parse_null_err_shape h
  rw [hsh]
  unfold parse_null pvalue at h ⊢
  exact ⟨_, pmap_err_build (tag_err_append (pmap_err_elim h) (by decide) hext),
    rfl⟩

lemma doubleQ_ok_append (hext : ∀ c ∈ ext, isMultispaceChar c = true)
    {i r : List Char} {q : ℚ} (h : doubleQ i = .ok (r, q)) :
    doubleQ (i ++ ext) = .ok (r ++ ext, q) := by
  rw [doubleQ_append hext, h]

lemma doubleQ_err_append (hext : ∀ c ∈ ext, isMultispaceChar c = true)
    {i : List Char} {e : NomExc} (h : doubleQ i = .error e) :
    ∃ e', doubleQ (i ++ ext) = .error e' ∧ e'.isFatal = e.isFatal := by
  rw [doubleQ_append hext, h]
  cases e with
  | err e0 => exact ⟨_, rfl, rfl⟩
  | fail e0 => exact ⟨_, rfl, rfl⟩

end AtomAppend

section ElemAppend

variable {ext : List Char} {α : Type}

lemma tag_ok_append' {t i ext i1 y : List Char}
    (h : tag t i = .ok (i1, y)) : tag t (i ++ ext) = .ok (i1 ++ ext, y) :=
  tag_ok_append h

lemma ms0_ok_shape {j j1 : List Char} {u : Unit}
    (h : multispace0 j = .ok (j1, u)) : j1 = j.dropWhile isMultispaceChar := by
  unfold multispace0 at h
  simp only [Except.ok.injEq, Prod.mk.injEq] at h
  exact h.1.symm

lemma elem_ok_append {p : Parser α}
    (hext : ∀ c ∈ ext, isMultispaceChar c = true)
    (hpOk : ∀ j r x, p j = .ok (r, x) →
      p (j ++ ext) = .ok (r ++ ext, x) ∨ (r = [] ∧ p (j ++ ext) = .ok ([], x)))
    (hpNil : ∃ e, p [] = .error e) :
    ∀ j r x, delimited multispace0 p multispace0 j = .ok (r, x) →
      delimited multispace0 p multispace0 (j ++ ext) = .ok (r ++ ext, x) ∨
        (r = [] ∧ delimited multispace0 p multispace0 (j ++ ext) = .ok ([], x)) := by
  intro j r x h
  obtain ⟨j1, y1, r1, y3, h1, h2, h3⟩ := delimited_ok_elim h
  have hj1 := ms0_ok_shape h1
  have hr := ms0_ok_shape h3
  subst hj1
  have hj1ne : j.dropWhile isMultispaceChar ≠ [] := by
    intro h0
    obtain ⟨e, he⟩ := hpNil
    rw [h0] at h2
    rw [h2] at he
    exact absurd he (by simp)
  have hms : multispace0 (j ++ ext) =
      .ok (j.dropWhile isMultispaceChar ++ ext, ()) := by
    unfold multispace0
    rw [dropWhile_append_ne hj1ne]
  rcases hpOk _ _ _ h2 with hp | ⟨hr1, hp⟩
  · by_cases hr1e : r1.dropWhile isMultispaceChar = []
    · right
      have hms2 : multispace0 (r1 ++ ext) = .ok ([], ()) := by
        unfold multispace0
        rw [dropWhile_append_nil hr1e hext]
      exact ⟨by rw [hr, hr1e], delimited_ok_build hms hp hms2⟩
    · left
      have hms2 : multispace0 (r1 ++ ext) = .ok (r ++ ext, ()) := by
        unfold multispace0
        rw [dropWhile_append_ne hr1e, hr]
      exact delimited_ok_build hms hp hms2
  · subst hr1
    right
    have hms2 : multispace0 ([] : List Char) = .ok ([], ()) := by
      unfold multispace0
      rfl
    exact ⟨by rw [hr]; rfl, delimited_ok_build hms hp hms2⟩

lemma elem_err_append {p : Parser α}
    (hext : ∀ c ∈ ext, isMultispaceChar c = true)
    (hpErr : ∀ j e, p j = .error e →
      ∃ e', p (j ++ ext) = .error e' ∧ e'.isFatal = e.isFatal) :
    ∀ j e, delimited multispace0 p multispace0 j = .error e →
      ∃ e', delimited multispace0 p multispace0 (j ++ ext) = .error e' ∧
        e'.isFatal = e.isFatal := by
  intro j e h
  rcases delimited_err_elim h with h1 | ⟨j1, y1, h1, h2⟩ | ⟨j1, y1, r1, x, h1, h2, h3⟩
  · exact absurd h1 (by simp [multispace0])
  · have hj1 := ms0_ok_shape h1
    subst hj1
    by_cases hj1e : j.dropWhile isMultispaceChar = []
    · have hms : multispace0 (j ++ ext) = .ok ([], ()) := by
        unfold multispace0
        rw [dropWhile_append_nil hj1e hext]
      rw [hj1e] at h2
      exact ⟨e, delimited_err_build2 hms h2, rfl⟩
    · obtain ⟨e', he', hsh⟩ := hpErr _ _ h2
      have hms : multispace0 (j ++ ext) =
          .ok (j.dropWhile isMultispaceChar ++ ext, ()) := by
        unfold multispace0
        rw [dropWhile_append_ne hj1e]
      exact ⟨e', delimited_err_build2 hms he', hsh⟩
  · exact absurd h3 (by simp [multispace0])

lemma loop_nil {β : Type} {elem : Parser β} (fuel : Nat) (acc : List β)
    (hf : fuel ≠ 0) :
    sepList0Loop (tag [',']) elem fuel [] acc = .ok ([], acc) := by
  cases fuel with
  | zero => exact absurd rfl hf
  | succ f => rfl

lemma loop_append {β : Type} {elem : Parser β}
    (hext : ∀ c ∈ ext, isMultispaceChar c = true)
    (helemOk : ∀ j r x, elem j = .ok (r, x) →
      elem (j ++ ext) = .ok (r ++ ext, x) ∨ (r = [] ∧ elem (j ++ ext) = .ok ([], x)))
    (helemErr : ∀ j e, elem j = .error e →
      ∃ e', elem (j ++ ext) = .error e' ∧ e'.isFatal = e.isFatal) :
    ∀ fuel i acc r l, sepList0Loop (tag [',']) elem fuel i acc = .ok (r, l) →
      sepList0Loop (tag [',']) elem fuel (i ++ ext) acc = .ok (r ++ ext, l) ∨
        (r = [] ∧ sepList0Loop (tag [',']) elem fuel (i ++ ext) acc = .ok ([], l)) := by
  intro fuel
  induction fuel with
  | zero => intro i acc r l h; exact absurd h (by simp [sepList0Loop])
  | succ f ih =>
    intro i acc r l h
    simp only [sepList0Loop] at h ⊢
    cases hsep : tag [','] i with
    | error e =>
      have hshape := tag_err_shape hsep
      subst hshape
      simp only [tag_err_append hsep (by decide) hext]
      simp only [hsep] at h
      simp only [Except.ok.injEq, Prod.mk.injEq] at h
      left
      simp [h.1, h.2]
    | ok z =>
      obtain ⟨i1, y⟩ := z
      simp only [tag_ok_append' hsep]
      simp only [hsep] at h
      have hlen := mono_tag hsep
      simp at hlen
      have hne : ¬(i1.length = i.length) := by omega
      rw [if_neg hne] at h
      have hne' : ¬((i1 ++ ext).length = (i ++ ext).length) := by
        simp
        omega
      rw [if_neg hne']
      cases he : elem i1 with
      | error e0 =>
        cases e0 with
        | fail e1 =>
          simp only [he] at h
          exact absurd h (by simp)
        | err e1 =>
          simp only [he] at h
          simp only [Except.ok.injEq, Prod.mk.injEq] at h
          obtain ⟨e', he', hsh⟩ := helemErr _ _ he
          cases e' with
          | fail e2 => simp [NomExc.isFatal] at hsh
          | err e2 =>
            simp only [he']
            left
            simp [h.1, h.2]
      | ok z2 =>
        obtain ⟨i2, x⟩ := z2
        simp only [he] at h
        rcases helemOk _ _ _ he with hp | ⟨hi2, hp⟩
        · simp only [hp]
          exact ih i2 (acc ++ [x]) r l h
        · subst hi2
          simp only [hp]
          cases f with
          | zero => exact absurd h (by simp [sepList0Loop])
          | succ g =>
            rw [loop_nil (g + 1) (acc ++ [x]) (by omega)] at h
            rw [loop_nil (g + 1) (acc ++ [x]) (by omega)]
            simp only [Except.ok.injEq, Prod.mk.injEq] at h
            right
            simp [← h.1, h.2]

lemma loop_err_append {β : Type} {elem : Parser β}
    (hext : ∀ c ∈ ext, isMultispaceChar c = true)
    (helemOk : ∀ j r x, elem j = .ok (r, x) →
      elem (j ++ ext) = .ok (r ++ ext, x) ∨ (r = [] ∧ elem (j ++ ext) = .ok ([], x)))
    (helemErr : ∀ j e, elem j = .error e →
      ∃ e', elem (j ++ ext) = .error e' ∧ e'.isFatal = e.isFatal) :
    ∀ fuel i acc e, sepList0Loop (tag [',']) elem fuel i acc = .error e →
      ∃ e', sepList0Loop (tag [',']) elem fuel (i ++ ext) acc = .error e' ∧
        e'.isFatal = e.isFatal := by
  intro fuel
  induction fuel with
  | zero =>
    intro i acc e h
    simp only [sepList0Loop, Except.error.injEq] at h
    exact ⟨.err ⟨i ++ ext, .fuel⟩, rfl, by rw [← h]; rfl⟩
  | succ f ih =>
    intro i acc e h
    simp only [sepList0Loop] at h ⊢
    cases hsep : tag [','] i with
    | error e0 =>
      have hshape := tag_err_shape hsep
      subst hshape
      simp only [hsep] at h
      exact absurd h (by simp)
    | ok z =>
      obtain ⟨i1, y⟩ := z
      simp only [tag_ok_append' hsep]
      simp only [hsep] at h
      have hlen := mono_tag hsep
      simp at hlen
      split at h
      · next hcond => omega
      · have hne' : ¬((i1 ++ ext).length = (i ++ ext).length) := by
          simp
          omega
        rw [if_neg hne']
        cases he : elem i1 with
        | error e0 =>
          cases e0 with
          | err e1 =>
            simp only [he] at h
            exact absurd h (by simp)
          | fail e1 =>
            simp only [he] at h
            simp only [Except.error.injEq] at h
            obtain ⟨e', he', hsh⟩ := helemErr _ _ he
            cases e' with
            | err e2 => simp [NomExc.isFatal] at hsh
            | fail e2 =>
              simp only [he']
              exact ⟨.fail e2, rfl, by rw [← h]; exact hsh⟩
        | ok z2 =>
          obtain ⟨i2, x⟩ := z2
          simp only [he] at h
          rcases helemOk _ _ _ he with hp | ⟨hi2, hp⟩
          · simp only [hp]
            exact ih i2 (acc ++ [x]) e h
          · subst hi2
            simp only [hp]
            cases f with
            | zero =>
              simp only [sepList0Loop, Except.error.injEq] at h
              exact ⟨.err ⟨[], .fuel⟩, rfl, by rw [← h]⟩
            | succ g =>
              rw [loop_nil (g + 1) (acc ++ [x]) (by omega)] at h
              exact absurd h (by simp)

lemma sepList0_ok_append {β : Type} {elem : Parser β} {fuel : Nat}
    (hext : ∀ c ∈ ext, isMultispaceChar c = true)
    (helemOk : ∀ j r x, elem j = .ok (r, x) →
      elem (j ++ ext) = .ok (r ++ ext, x) ∨ (r = [] ∧ elem (j ++ ext) = .ok ([], x)))
    (helemErr : ∀ j e, elem j = .error e →
      ∃ e', elem (j ++ ext) = .error e' ∧ e'.isFatal = e.isFatal) :
    ∀ i r l, sepList0 (tag [',']) elem fuel i = .ok (r, l) →
      sepList0 (tag [',']) elem fuel (i ++ ext) = .ok (r ++ ext, l) ∨
        (r = [] ∧ sepList0 (tag [',']) elem fuel (i ++ ext) = .ok ([], l)) := by
  intro i r l h
  unfold sepList0 at h ⊢
  cases he : elem i with
  | error e0 =>
    cases e0 with
    | fail e1 =>
      simp only [he] at h
      exact absurd h (by simp)
    | err e1 =>
      simp only [he] at h
      simp only [Except.ok.injEq, Prod.mk.injEq] at h
      obtain ⟨e', he', hsh⟩ := helemErr _ _ he
      cases e' with
      | fail e2 => simp [NomExc.isFatal] at hsh
      | err e2 =>
        simp only [he']
        left
        simp [h.1, h.2]
  | ok z =>
    obtain ⟨i1, x⟩ := z
    simp only [he] at h
    rcases helemOk _ _ _ he with hp | ⟨hi1, hp⟩
    · simp only [hp]
      exact loop_append hext helemOk helemErr fuel i1 [x] r l h
    · subst hi1
      simp only [hp]
      cases fuel with
      | zero => exact absurd h (by simp [sepList0Loop])
      | succ g =>
        rw [loop_nil (g + 1) [x] (by omega)] at h
        rw [loop_nil (g + 1) [x] (by omega)]
        simp only [Except.ok.injEq, Prod.mk.injEq] at h
        right
        simp [← h.1, h.2]

lemma sepList0_err_append {β : Type} {elem : Parser β} {fuel : Nat}
    (hext : ∀ c ∈ ext, isMultispaceChar c = true)
    (helemOk : ∀ j r x, elem j = .ok (r, x) →
      elem (j ++ ext) = .ok (r ++ ext, x) ∨ (r = [] ∧ elem (j ++ ext) = .ok ([], x)))
    (helemErr : ∀ j e, elem j = .error e →
      ∃ e', elem (j ++ ext) = .error e' ∧ e'.isFatal = e.isFatal) :
    ∀ i e, sepList0 (tag [',']) elem fuel i = .error e →
      ∃ e', sepList0 (tag [',']) elem fuel (i ++ ext) = .error e' ∧
        e'.isFatal = e.isFatal := by
  intro i e h
  unfold sepList0 at h ⊢
  cases he : elem i with
  | error e0 =>
    cases e0 with
    | err e1 =>
      simp only [he] at h
      exact absurd h (by simp)
    | fail e1 =>
      simp only [he] at h
      simp only [Except.error.injEq] at h
      obtain ⟨e', he', hsh⟩ := helemErr _ _ he
      cases e' with
      | err e2 => simp [NomExc.isFatal] at hsh
      | fail e2 =>
        simp only [he']
        exact ⟨.fail e2, rfl, by rw [← h]; exact hsh⟩
  | ok z =>
    obtain ⟨i1, x⟩ := z
    simp only [he] at h
    rcases helemOk _ _ _ he with hp | ⟨hi1, hp⟩
    · simp only [hp]
      exact loop_err_append hext helemOk helemErr fuel i1 [x] e h
    · subst hi1
      simp only [hp]
      cases fuel with
      | zero =>
        simp only [sepList0Loop, Except.error.injEq] at h
        exact ⟨.err ⟨[], .fuel⟩, rfl, by rw [← h]⟩
      | succ g =>
        rw [loop_nil (g + 1) [x] (by omega)] at h
        exact absurd h (by simp)

end ElemAppend

section WithAppend

variable {ext : List Char} {p : Parser JsonValue} {fl : Nat}

lemma arrayWith_ok_append
    (hext : ∀ c ∈ ext, isMultispaceChar c = true)
    (hpOk : ∀ j r x, p j = .ok (r, x) →
      p (j ++ ext) = .ok (r ++ ext, x) ∨ (r = [] ∧ p (j ++ ext) = .ok ([], x)))
    (hpErr : ∀ j e, p j = .error e →
      ∃ e', p (j ++ ext) = .error e' ∧ e'.isFatal = e.isFatal)
    (hpNil : ∃ e, p [] = .error e) :
    ∀ i r l, parse_arrayWith p fl i = .ok (r, l) →
      parse_arrayWith p fl (i ++ ext) = .ok (r ++ ext, l) := by
  intro i r l h
  unfold parse_arrayWith context at h ⊢
  obtain ⟨i1, y1, R, y3, h1, h2, h3⟩ := delimited_ok_elim h
  rcases sepList0_ok_append hext (elem_ok_append hext hpOk hpNil)
      (elem_err_append hext hpErr) i1 R l h2 with hl | ⟨hR, hl⟩
  · exact delimited_ok_build (tag_ok_append' h1) hl (tag_ok_append' h3)
  · subst hR
    exact absurd (tag_ok_parts h3).1 (by simp [List.isPrefixOf])

lemma arrayWith_err_append
    (hext : ∀ c ∈ ext, isMultispaceChar c = true)
    (hpOk : ∀ j r x, p j = .ok (r, x) →
      p (j ++ ext) = .ok (r ++ ext, x) ∨ (r = [] ∧ p (j ++ ext) = .ok ([], x)))
    (hpErr : ∀ j e, p j = .error e →
      ∃ e', p (j ++ ext) = .error e' ∧ e'.isFatal = e.isFatal)
    (hpNil : ∃ e, p [] = .error e) :
    ∀ i e, parse_arrayWith p fl i = .error e →
      ∃ e', parse_arrayWith p fl (i ++ ext) = .error e' ∧
        e'.isFatal = e.isFatal := by
  intro i e h
  unfold parse_arrayWith context at h ⊢
  rcases delimited_err_elim h with h1 | ⟨i1, y1, h1, h2⟩ | ⟨i1, y1, R, l, h1, h2, h3⟩
  · exact ⟨_, delimited_err_build1 (tag_err_append h1 (by decide) hext),
      by rw [tag_err_shape h1]; rfl⟩
  · obtain ⟨e', he', hsh⟩ := sepList0_err_append hext
      (elem_ok_append hext hpOk hpNil)
      (elem_err_append hext hpErr) i1 e h2
    exact ⟨e', delimited_err_build2 (tag_ok_append' h1) he', hsh⟩
  · rcases sepList0_ok_append hext (elem_ok_append hext hpOk hpNil)
        (elem_err_append hext hpErr) i1 R l h2 with hl | ⟨hR, hl⟩
    · exact ⟨_, delimited_err_build3 (tag_ok_append' h1) hl
        (tag_err_append h3 (by decide) hext), by rw [tag_err_shape h3]; rfl⟩
    · subst hR
      exact ⟨.err ⟨[], .tag⟩, delimited_err_build3 (tag_ok_append' h1) hl rfl,
        by rw [tag_err_shape h3]⟩

lemma keyElem_ok_append (hext : ∀ c ∈ ext, isMultispaceChar c = true) :
    ∀ j r x, delimited multispace0 parse_string multispace0 j = .ok (r, x) →
      delimited multispace0 parse_string multispace0 (j ++ ext) = .ok (r ++ ext, x) ∨
        (r = [] ∧
          delimited multispace0 parse_string multispace0 (j ++ ext) = .ok ([], x)) :=
  elem_ok_append hext
    (fun _ _ _ hx => Or.inl (parse_string_ok_append hext hx))
    ⟨.err ⟨[], .tag⟩, rfl⟩

lemma keyElem_err_append (hext : ∀ c ∈ ext, isMultispaceChar c = true) :
    ∀ j e, delimited multispace0 parse_string multispace0 j = .error e →
      ∃ e', delimited multispace0 parse_string multispace0 (j ++ ext) =
        .error e' ∧ e'.isFatal = e.isFatal :=
  elem_err_append hext (fun _ _ hx => parse_string_err_append hext hx)

lemma pair_ok_append
    (hext : ∀ c ∈ ext, isMultispaceChar c = true)
    (hpOk : ∀ j r x, p j = .ok (r, x) →
      p (j ++ ext) = .ok (r ++ ext, x) ∨ (r = [] ∧ p (j ++ ext) = .ok ([], x)))
    (hpErr : ∀ j e, p j = .error e →
      ∃ e', p (j ++ ext) = .error e' ∧ e'.isFatal = e.isFatal)
    (hpNil : ∃ e, p [] = .error e) :
    ∀ j r kv,
      separatedPair (delimited multispace0 parse_string multispace0) (tag [':'])
        (delimited multispace0 p multispace0) j = .ok (r, kv) →
      separatedPair (delimited multispace0 parse_string multispace0) (tag [':'])
          (delimited multispace0 p multispace0) (j ++ ext) = .ok (r ++ ext, kv) ∨
        (r = [] ∧
          separatedPair (delimited multispace0 parse_string multispace0) (tag [':'])
            (delimited multispace0 p multispace0) (j ++ ext) = .ok ([], kv)) := by
  intro j r kv h
  obtain ⟨k, v⟩ := kv
  obtain ⟨j1, j2, ys, h1, h2, h3⟩ := separatedPair_ok_elim h
  rcases keyElem_ok_append hext j j1 k h1 with hk | ⟨hj1, hk⟩
  · rcases elem_ok_append hext hpOk hpNil j2 r v h3 with hv | ⟨hr, hv⟩
    · exact Or.inl (separatedPair_ok_build hk (tag_ok_append' h2) hv)
    · exact Or.inr ⟨hr, separatedPair_ok_build hk (tag_ok_append' h2) hv⟩
  · subst hj1
    exact absurd (tag_ok_parts h2).1 (by simp [List.isPrefixOf])

lemma pair_err_append
    (hext : ∀ c ∈ ext, isMultispaceChar c = true)
    (hpOk : ∀ j r x, p j = .ok (r, x) →
      p (j ++ ext) = .ok (r ++ ext, x) ∨ (r = [] ∧ p (j ++ ext) = .ok ([], x)))
    (hpErr : ∀ j e, p j = .error e →
      ∃ e', p (j ++ ext) = .error e' ∧ e'.isFatal = e.isFatal)
    (hpNil : ∃ e, p [] = .error e) :
    ∀ j e,
      separatedPair (delimited multispace0 parse_string multispace0) (tag [':'])
        (delimited multispace0 p multispace0) j = .error e →
      ∃ e', separatedPair (delimited multispace0 parse_string multispace0) (tag [':'])
        (delimited multispace0 p multispace0) (j ++ ext) = .error e' ∧
        e'.isFatal = e.isFatal := by
  intro j e h
  rcases separatedPair_err_elim h with h1 | ⟨j1, k, h1, h2⟩ | ⟨j1, k, j2, ys, h1, h2, h3⟩
  · obtain ⟨e', he', hsh⟩ := keyElem_err_append hext j e h1
    exact ⟨e', separatedPair_err_build1 he', hsh⟩
  · rcases keyElem_ok_append hext j j1 k h1 with hk | ⟨hj1, hk⟩
    · exact ⟨_, separatedPair_err_build2 hk (tag_err_append h2 (by decide) hext),
        by rw [tag_err_shape h2]; rfl⟩
    · subst hj1
      exact ⟨.err ⟨[], .tag⟩, separatedPair_err_build2 hk rfl,
        by rw [tag_err_shape h2]⟩
  · rcases keyElem_ok_append hext j j1 k h1 with hk | ⟨hj1, hk⟩
    · obtain ⟨e', he', hsh⟩ := elem_err_append hext hpErr j2 e h3
      exact ⟨e', separatedPair_err_build3 hk (tag_ok_append' h2) he', hsh⟩
    · subst hj1
      exact absurd (tag_ok_parts h2).1 (by simp [List.isPrefixOf])

lemma objectWith_ok_append
    (hext : ∀ c ∈ ext, isMultispaceChar c = true)
    (hpOk : ∀ j r x, p j = .ok (r, x) →
      p (j ++ ext) = .ok (r ++ ext, x) ∨ (r = [] ∧ p (j ++ ext) = .ok ([], x)))
    (hpErr : ∀ j e, p j = .error e →
      ∃ e', p (j ++ ext) = .error e' ∧ e'.isFatal = e.isFatal)
    (hpNil : ∃ e, p [] = .error e) :
    ∀ i r m, parse_objectWith p fl i = .ok (r, m) →
      parse_objectWith p fl (i ++ ext) = .ok (r ++ ext, m) := by
  intro i r m h
  unfold parse_objectWith context at h ⊢
  obtain ⟨i1, y1, R, y3, h1, h2, h3⟩ := delimited_ok_elim h
  obtain ⟨pairs, hpair, hm⟩ := pmap_ok_elim h2
  subst hm
  rcases sepList0_ok_append hext (pair_ok_append hext hpOk hpErr hpNil)
      (pair_err_append hext hpOk hpErr hpNil) i1 R pairs hpair with hl | ⟨hR, hl⟩
  · exact delimited_ok_build (tag_ok_append' h1) (pmap_ok_build hl)
      (tag_ok_append' h3)
  · subst hR
    exact absurd (tag_ok_parts h3).1 (by simp [List.isPrefixOf])

lemma objectWith_err_append
    (hext : ∀ c ∈ ext, isMultispaceChar c = true)
    (hpOk : ∀ j r x, p j = .ok (r, x) →
      p (j ++ ext) = .ok (r ++ ext, x) ∨ (r = [] ∧ p (j ++ ext) = .ok ([], x)))
    (hpErr : ∀ j e, p j = .error e →
      ∃ e', p (j ++ ext) = .error e' ∧ e'.isFatal = e.isFatal)
    (hpNil : ∃ e, p [] = .error e) :
    ∀ i e, parse_objectWith p fl i = .error e →
      ∃ e', parse_objectWith p fl (i ++ ext) = .error e' ∧
        e'.isFatal = e.isFatal := by
  intro i e h
  unfold parse_objectWith context at h ⊢
  rcases delimited_err_elim h with h1 | ⟨i1, y1, h1, h2⟩ | ⟨i1, y1, R, l, h1, h2, h3⟩
  · exact ⟨_, delimited_err_build1 (tag_err_append h1 (by decide) hext),
      by rw [tag_err_shape h1]; rfl⟩
  · obtain ⟨e', he', hsh⟩ := sepList0_err_append hext
      (pair_ok_append hext hpOk hpErr hpNil)
      (pair_err_append hext hpOk hpErr hpNil) i1 e (pmap_err_elim h2)
    exact ⟨e', delimited_err_build2 (tag_ok_append' h1) (pmap_err_build he'), hsh⟩
  · obtain ⟨pairs, hpair, hm⟩ := pmap_ok_elim h2
    subst hm
    rcases sepList0_ok_append hext (pair_ok_append hext hpOk hpErr hpNil)
        (pair_err_append hext hpOk hpErr hpNil) i1 R pairs hpair with hl | ⟨hR, hl⟩
    · exact ⟨_, delimited_err_build3 (tag_ok_append' h1) (pmap_ok_build hl)
        (tag_err_append h3 (by decide) hext), by rw [tag_err_shape h3]; rfl⟩
    · subst hR
      exact ⟨.err ⟨[], .tag⟩, delimited_err_build3 (tag_ok_append' h1)
        (pmap_ok_build hl) rfl, by rw [tag_err_shape h3]⟩

lemma parseF_nil (f : Nat) : ∃ e, parseF f [] = .error e := by
  cases f with
  | zero => exact ⟨.err ⟨[], .fuel⟩, rfl⟩
  | succ f => exact ⟨.err ⟨[], .tag⟩, rfl⟩

lemma alt_chain_nil (f : Nat) :
    alt2 (pmap JsonValue.Object (parse_objectWith (parseF f) f))
      (alt2 (pmap JsonValue.Array (parse_arrayWith (parseF f) f))
        (alt2 (pmap JsonValue.Number doubleQ)
          (alt2 (pmap (fun s => JsonValue.Str s.asString) parse_string)
            (alt2 (pmap JsonValue.Bool parse_bool) parse_null)))) [] =
      .error (.err ⟨[], .tag⟩) := rfl

end WithAppend

section ParseAppend

variable {ext : List Char} {α β : Type}

lemma pmap_err_append_lift {f : α → β} {P Q : Parser α} {i i' : List Char}
    (hP : ∀ e, P i = .error e → ∃ e', Q i' = .error e' ∧ e'.isFatal = e.isFatal) :
    ∀ e, pmap f P i = .error e →
      ∃ e', pmap f Q i' = .error e' ∧ e'.isFatal = e.isFatal := by
  intro e h
  obtain ⟨e', h', hs⟩ := hP e (pmap_err_elim h)
  exact ⟨e', pmap_err_build h', hs⟩

lemma err_append_recoverable {P : Parser α} {i' : List Char} {e1 : NomErr}
    (h : ∃ e', P i' = .error e' ∧ e'.isFatal = (NomExc.err e1).isFatal) :
    ∃ e2, P i' = .error (.err e2) := by
  obtain ⟨e', h', hs⟩ := h
  cases e' with
  | err e2 => exact ⟨e2, h'⟩
  | fail e2 => simp [NomExc.isFatal] at hs

lemma alt2_err_append_chain {p q p' q' : Parser α} {i i' : List Char} {e : NomExc}
    (h : alt2 p q i = .error e)
    (hp : ∀ e0, p i = .error e0 →
      ∃ e0', p' i' = .error e0' ∧ e0'.isFatal = e0.isFatal)
    (hq : ∀ e0, q i = .error e0 →
      ∃ e0', q' i' = .error e0' ∧ e0'.isFatal = e0.isFatal) :
    ∃ e', alt2 p' q' i' = .error e' ∧ e'.isFatal = e.isFatal := by
  rcases alt2_err_elim h with ⟨hfat, h1⟩ | ⟨e1, h1, h2⟩
  · obtain ⟨e0', hp', hsh⟩ := hp e h1
    rw [hfat] at hsh
    cases e0' with
    | err e2 => simp [NomExc.isFatal] at hsh
    | fail e2 =>
      refine ⟨.fail e2, alt2_build_fatal hp', ?_⟩
      rw [hfat]
      exact hsh
  · obtain ⟨e1', hp'⟩ := err_append_recoverable (hp _ h1)
    obtain ⟨e2', hq', hsh2⟩ := hq _ h2
    exact ⟨e2', alt2_build_err hp' hq', hsh2⟩

lemma parseF_append (hext : ∀ c ∈ ext, isMultispaceChar c = true) :
    ∀ f : Nat,
      (∀ i r v, parseF f i = .ok (r, v) →
        parseF f (i ++ ext) = .ok (r ++ ext, v) ∨
          (r = [] ∧ parseF f (i ++ ext) = .ok ([], v))) ∧
      (∀ i e, parseF f i = .error e →
        ∃ e', parseF f (i ++ ext) = .error e' ∧ e'.isFatal = e.isFatal) := by
  intro f
  induction f with
  | zero =>
    constructor
    · intro i r v h
      exact absurd h (by simp [parseF])
    · intro i e h
      simp only [parseF, Except.error.injEq] at h
      exact ⟨.err ⟨i ++ ext, .fuel⟩, rfl, by rw [← h]; rfl⟩
  | succ f ih =>
    obtain ⟨ihOk, ihErr⟩ := ih
    have hpNil := parseF_nil f
    have hobjOk := @objectWith_ok_append ext (parseF f) f hext ihOk ihErr hpNil
    have hobjErr := @objectWith_err_append ext (parseF f) f hext ihOk ihErr hpNil
    have harrOk := @arrayWith_ok_append ext (parseF f) f hext ihOk ihErr hpNil
    have harrErr := @arrayWith_err_append ext (parseF f) f hext ihOk ihErr hpNil
    constructor
    · intro i r v h
      simp only [parseF, context] at h ⊢
      obtain ⟨core, y1, rest, y3, h1, h2, h3⟩ := delimited_ok_elim h
      have hcore := ms0_ok_shape h1
      subst hcore
      have hr := ms0_ok_shape h3
      have hcne : i.dropWhile isMultispaceChar ≠ [] := by
        intro h0
        rw [h0, alt_chain_nil f] at h2
        exact absurd h2 (by simp)
      have hms : multispace0 (i ++ ext) =
          .ok (i.dropWhile isMultispaceChar ++ ext, ()) := by
        unfold multispace0
        rw [dropWhile_append_ne hcne]
      have haltExt : alt2 (pmap JsonValue.Object (parse_objectWith (parseF f) f))
          (alt2 (pmap JsonValue.Array (parse_arrayWith (parseF f) f))
            (alt2 (pmap JsonValue.Number doubleQ)
              (alt2 (pmap (fun s => JsonValue.Str s.asString) parse_string)
                (alt2 (pmap JsonValue.Bool parse_bool) parse_null))))
          (i.dropWhile isMultispaceChar ++ ext) = .ok (rest ++ ext, v) := by
        rcases alt2_ok_elim' h2 with hb1 | ⟨e1, he1, h2⟩
        · obtain ⟨m, hm, hv⟩ := pmap_ok_elim hb1
          subst hv
          exact alt2_build_ok1 (pmap_ok_build (hobjOk _ _ _ hm))
        obtain ⟨e1', he1'⟩ := err_append_recoverable (hobjErr _ _ (pmap_err_elim he1))
        apply alt2_build_ok2 (pmap_err_build he1')
        rcases alt2_ok_elim' h2 with hb2 | ⟨e2, he2, h2⟩
        · obtain ⟨m, hm, hv⟩ := pmap_ok_elim hb2
          subst hv
          exact alt2_build_ok1 (pmap_ok_build (harrOk _ _ _ hm))
        obtain ⟨e2', he2'⟩ := err_append_recoverable (harrErr _ _ (pmap_err_elim he2))
        apply alt2_build_ok2 (pmap_err_build he2')
        rcases alt2_ok_elim' h2 with hb3 | ⟨e3, he3, h2⟩
        · obtain ⟨m, hm, hv⟩ := pmap_ok_elim hb3
          subst hv
          exact alt2_build_ok1 (pmap_ok_build (doubleQ_ok_append hext hm))
        obtain ⟨e3', he3'⟩ :=
          err_append_recoverable (doubleQ_err_append hext (pmap_err_elim he3))
        apply alt2_build_ok2 (pmap_err_build he3')
        rcases alt2_ok_elim' h2 with hb4 | ⟨e4, he4, h2⟩
        · obtain ⟨m, hm, hv⟩ := pmap_ok_elim hb4
          subst hv
          exact alt2_build_ok1 (pmap_ok_build (parse_string_ok_append hext hm))
        obtain ⟨e4', he4'⟩ :=
          err_append_recoverable (parse_string_err_append hext (pmap_err_elim he4))
        apply alt2_build_ok2 (pmap_err_build he4')
        rcases alt2_ok_elim' h2 with hb5 | ⟨e5, he5, h2⟩
        · obtain ⟨m, hm, hv⟩ := pmap_ok_elim hb5
          subst hv
          exact alt2_build_ok1 (pmap_ok_build (parse_bool_ok_append hext hm))
        obtain ⟨e5', he5'⟩ :=
          err_append_recoverable (parse_bool_err_append hext (pmap_err_elim he5))
        exact alt2_build_ok2 (pmap_err_build he5') (parse_null_ok_append hext h2)
      by_cases hre : rest.dropWhile isMultispaceChar = []
      · right
        have hms2 : multispace0 (rest ++ ext) = .ok ([], ()) := by
          unfold multispace0
          rw [dropWhile_append_nil hre hext]
        exact ⟨by rw [hr, hre], delimited_ok_build hms haltExt hms2⟩
      · left
        have hms2 : multispace0 (rest ++ ext) = .ok (r ++ ext, ()) := by
          unfold multispace0
          rw [dropWhile_append_ne hre, hr]
        exact delimited_ok_build hms haltExt hms2
    · intro i e h
      simp only [parseF, context] at h ⊢
      rcases delimited_err_elim h with h1 | ⟨core, y1, h1, h2⟩ |
        ⟨core, y1, rest, v, h1, h2, h3⟩
      · exact absurd h1 (by simp [multispace0])
      · have hcore := ms0_ok_shape h1
        subst hcore
        by_cases hce : i.dropWhile isMultispaceChar = []
        · have hms : multispace0 (i ++ ext) = .ok ([], ()) := by
            unfold multispace0
            rw [dropWhile_append_nil hce hext]
          rw [hce, alt_chain_nil f] at h2
          simp only [Except.error.injEq] at h2
          exact ⟨.err ⟨[], .tag⟩, delimited_err_build2 hms (alt_chain_nil f),
            by rw [← h2]⟩
        · have hms : multispace0 (i ++ ext) =
              .ok (i.dropWhile isMultispaceChar ++ ext, ()) := by
            unfold multispace0
            rw [dropWhile_append_ne hce]
          obtain ⟨e', he', hsh⟩ :=
            alt2_err_append_chain h2
              (pmap_err_append_lift (fun e0 h0 => hobjErr _ e0 h0))
              (fun eA hA =>
                alt2_err_append_chain hA
                  (pmap_err_append_lift (fun e0 h0 => harrErr _ e0 h0))
                  (fun eB hB =>
                    alt2_err_append_chain hB
                      (pmap_err_append_lift
                        (fun e0 h0 => doubleQ_err_append hext h0))
                      (fun eC hC =>
                        alt2_err_append_chain hC
                          (pmap_err_append_lift
                            (fun e0 h0 => parse_string_err_append hext h0))
                          (fun eD hD =>
                            alt2_err_append_chain hD
                              (pmap_err_append_lift
                                (fun e0 h0 => parse_bool_err_append hext h0))
                              (fun eE hE => parse_null_err_append hext hE)))))
          exact ⟨e', delimited_err_build2 hms he', hsh⟩
      · exact absurd h3 (by simp [multispace0])

lemma parseF_leading_blank {w s : List Char}
    (hw : ∀ c ∈ w, isMultispaceChar c = true) (f : Nat) :
    parseF (f + 1) (w ++ s) = parseF (f + 1) s := by
  simp only [parseF, context, delimited, multispace0]
  rw [dropWhile_append_all hw]

end ParseAppend

/-- C5: whitespace trimming is idempotent at the entry point: if `parse`
succeeds on `s` with value `v`, then for any runs `w1`, `w2` of blank
characters (space, tab, newline, carriage return), `parse (w1 ++ s ++ w2)`
also succeeds with the same value `v`. -/
theorem parse_whitespace_idempotent (w1 w2 s r : List Char) (v : JsonValue)
    (hw1 : ∀ c ∈ w1, isMultispaceChar c = true)
    (hw2 : ∀ c ∈ w2, isMultispaceChar c = true)
    (h : parse s = .ok (r, v)) :
    ∃ r', parse (w1 ++ s ++ w2) = .ok (r', v) := by
  have hLs : s.length < (w1 ++ s ++ w2).length + 1 := by
    simp only [List.length_append]
    omega
  have e1 : parse (w1 ++ s ++ w2) =
      parseF ((w1 ++ s ++ w2).length + 1) (s ++ w2) := by
    unfold parse
    rw [List.append_assoc]
    exact parseF_leading_blank hw1 ((w1 ++ (s ++ w2)).length)
  have e2 : parseF ((w1 ++ s ++ w2).length + 1) s = .ok (r, v) := by
    rw [parseF_fuel_congr ((w1 ++ s ++ w2).length + 1) (s.length + 1) s hLs
      (by omega)]
    exact h
  rcases (parseF_append hw2 ((w1 ++ s ++ w2).length + 1)).1 s r v e2 with
    hk | ⟨hre, hk⟩
  · exact ⟨r ++ w2, by rw [e1, hk]⟩
  · exact ⟨[], by rw [e1, hk]⟩

/-- Witness for C5 with one leading space and one trailing newline around
the input `1`. -/
theorem parse_whitespace_idempotent_witness :
    ∃ r', parse ([' '] ++ "1".data ++ ['\n']) = .ok (r', .Number 1) :=
  parse_whitespace_idempotent [' '] ['\n'] "1".data [] (.Number 1)
    (by decide) (by decide) (by rfl)


lemma lookup_hashInsert (m : List (String × JsonValue)) (k k' : String)
    (v : JsonValue) :
    List.lookup k' (hashInsert m k v) =
      if k = k' then some v else List.lookup k' m := by
  induction m with
  | nil =>
    by_cases h : k = k'
    · subst h
      simp [hashInsert, List.lookup]
    · have hb : (k' == k) = false := beq_eq_false_iff_ne.mpr (Ne.symm h)
      simp [hashInsert, List.lookup, hb, h]
  | cons kv rest ih =>
    obtain ⟨k2, v2⟩ := kv
    simp only [hashInsert]
    by_cases h2 : k2 = k
    · subst h2
      rw [if_pos rfl]
      by_cases h : k2 = k'
      · subst h
        simp [List.lookup]
      · have hb : (k' == k2) = false := beq_eq_false_iff_ne.mpr (Ne.symm h)
        simp [List.lookup, hb, h]
    · rw [if_neg h2]
      simp only [List.lookup]
      cases hb : (k' == k2) with
      | true =>
        have h : ¬(k = k') := fun he =>
          h2 ((beq_iff_eq.mp hb).symm.trans he.symm)
        simp [h]
      | false =>
        simp [ih]

lemma lookup_insertAll_fold (ps : List (List Char × JsonValue)) (k : String) :
    ∀ m : List (String × JsonValue),
      List.lookup k (ps.foldl (fun m kv => hashInsert m kv.1.asString kv.2) m) =
        ps.foldl (fun acc kv => if kv.1.asString = k then some kv.2 else acc)
          (List.lookup k m) := by
  induction ps with
  | nil => intro m; rfl
  | cons kv t ih =>
    intro m
    simp only [List.foldl_cons]
    rw [ih, lookup_hashInsert]

/-- C4: duplicate keys are resolved by later-occurrence-wins.  (1) For
every sequence of parsed key/value pairs, looking a key up in the
`HashMap` built by the object rule's insertion fold (`insertAll`) returns
the value of the LAST pair carrying that key (`lastVal`, written from the
claim's words); (2) every mapping produced by a successful object parse is
`insertAll` of some pair sequence; (3) concretely,
`parse({"a":1,"a":2})` succeeds with `Object({"a": Number(2.0)})` and
consumes the whole input. -/
theorem object_insert_last_wins :
    (∀ (ps : List (List Char × JsonValue)) (k : String),
      List.lookup k (insertAll ps) = lastVal ps k) ∧
    (∀ (p : Parser JsonValue) (fl : Nat) (i r : List Char)
        (m : List (String × JsonValue)),
      parse_objectWith p fl i = .ok (r, m) → ∃ ps, m = insertAll ps) ∧
    parse "\x7b\"a\":1,\"a\":2\x7d".data =
      .ok ([], .Object [("a", .Number 2)]) := by
  refine ⟨fun ps k => ?_, fun p fl i r m h => ?_, by rfl⟩
  · have := lookup_insertAll_fold ps k []
    simpa [insertAll, lastVal, List.lookup] using this
  · unfold parse_objectWith context at h
    obtain ⟨i1, y1, i2, y3, h1, h2, h3⟩ := delimited_ok_elim h
    obtain ⟨ps, hps, hm⟩ := pmap_ok_elim h2
    exact ⟨ps, hm⟩

/-- Witness for C4's parse clause: the duplicate-key object
`{"a":1,"a":2}` parsed by the object rule yields a mapping of the
`insertAll` form. -/
theorem object_insert_last_wins_witness :
    ∃ ps, [("a", JsonValue.Number 2)] = insertAll ps :=
  object_insert_last_wins.2.1 (parseF 13) 13 "\x7b\"a\":1,\"a\":2\x7d".data []
    [("a", JsonValue.Number 2)] (by rfl)
